import Mathlib

/-!
Shallow embedding of the CoNLL-U validator (`validate.py`) and proofs about it.

A token row is embedded as a list of column strings, as in the source, where a
row is `line.split("\t")`.  Python built-ins are modelled explicitly:

* `pyInt` models `int(s)` on an optionally signed run of ASCII digits (the
  inputs the validator feeds it); other strings yield `none`, the model of
  `ValueError`.
* `pyFloatQ` parses a decimal literal into the exact rational it denotes;
  `pyFloat` composes it with `roundD`, IEEE-754 binary64 rounding (round to
  nearest, ties to even, with subnormals and overflow to infinity), so
  `pyFloat` models `float(s)`: distinct decimals that round to the same
  double compare equal, exactly as in the program.
* `pyListGet` / `pyListModify` model Python list subscription, including
  negative-index wrap-around; `none` models `IndexError`.
* Recursive traversals of graphs that may be cyclic are embedded with an
  explicit fuel argument; exhausting fuel models a Python `RecursionError`.
  Wherever the source's recursion provably terminates, the fuel supplied is
  proved sufficient.

Diagnostics are modelled as values carrying the arguments the source passes to
`warn`; the driver-level error counter and printing logic of `warn` itself are
embedded separately for the exit-code and quiet/max-err theorems.
-/

/-- Column indices, as in the source. -/
def ID : Nat := 0

/-- FORM column index. -/
def FORM : Nat := 1

/-- LEMMA column index. -/
def LEMMA : Nat := 2

/-- UPOS column index. -/
def UPOS : Nat := 3

/-- XPOS column index. -/
def XPOS : Nat := 4

/-- FEATS column index. -/
def FEATS : Nat := 5

/-- HEAD column index. -/
def HEAD : Nat := 6

/-- DEPREL column index. -/
def DEPREL : Nat := 7

/-- DEPS column index. -/
def DEPS : Nat := 8

/-- MISC column index. -/
def MISC : Nat := 9

/-- COLCOUNT from the source. -/
def COLCOUNT : Nat := 10

/-- A token row: the list of column strings of one input line. -/
abbrev UDLine : Type := List String

/-- Column access `cols[i]`.  All embedded checks guard their subscripts with
the source's own length tests, so the default is only produced where Python
would raise; the claims' hypotheses always put us in the guarded regime. -/
def colAt (cols : UDLine) (i : Nat) : String :=
  List.getD cols i ""

/-- Value of a run of ASCII digits. -/
def digitsToNat (l : List Char) : Nat :=
  l.foldl (fun a c => a * 10 + (c.toNat - Char.toNat '0')) 0

/-- Characters `1`-`9`. -/
def isPosDigit (c : Char) : Bool :=
  decide ('1' ≤ c) && decide (c ≤ '9')

/-- Model of the regex `^[1-9][0-9]*$`. -/
def posIntChars (l : List Char) : Bool :=
  match l with
  | [] => false
  | c :: cs => isPosDigit c && cs.all Char.isDigit

/-- Model of the regex `^[0-9]+$`. -/
def digitChars (l : List Char) : Bool :=
  match l with
  | [] => false
  | _ :: _ => l.all Char.isDigit

/-- Split a character list at every occurrence of `sep` (model of Python
`str.split` with a one-character separator, on the character level). -/
def splitChar (sep : Char) : List Char → List (List Char)
  | [] => [[]]
  | c :: cs =>
    let r := splitChar sep cs
    if c = sep then [] :: r else (c :: r.headD []) :: r.tail

/-- Python `s.split(sep)` for a one-character separator. -/
def pySplit (sep : Char) (s : String) : List String :=
  (splitChar sep s.toList).map String.mk

/-- `is_word` from the source: ID matches `^[1-9][0-9]*$`. -/
def is_word (cols : UDLine) : Bool :=
  posIntChars (colAt cols ID).toList

/-- `is_multiword_token` from the source: ID matches `^[1-9][0-9]*-[1-9][0-9]*$`. -/
def is_multiword_token (cols : UDLine) : Bool :=
  match splitChar '-' (colAt cols ID).toList with
  | [a, b] => posIntChars a && posIntChars b
  | _ => false

/-- `is_empty_node` from the source: ID matches `^[0-9]+\.[1-9][0-9]*$`. -/
def is_empty_node (cols : UDLine) : Bool :=
  match splitChar '.' (colAt cols ID).toList with
  | [a, b] => digitChars a && posIntChars b
  | _ => false

/-- Model of `int(s)`: optional sign followed by ASCII digits; `none` models
`ValueError`.  (Python also tolerates surrounding whitespace and interior
underscores; no string the validator parses uses those forms.) -/
def pyInt (s : String) : Option Int :=
  match s.toList with
  | [] => none
  | '-' :: rest =>
    if rest ≠ [] && rest.all Char.isDigit then some (-(digitsToNat rest : Int)) else none
  | '+' :: rest =>
    if rest ≠ [] && rest.all Char.isDigit then some ((digitsToNat rest : Int)) else none
  | l => if l.all Char.isDigit then some ((digitsToNat l : Int)) else none

/-- Model of `float(s)` for plain decimal literals, as an exact rational;
`none` models `ValueError`. -/
def pyFloatQ (s : String) : Option ℚ :=
  let core : List Char → Option ℚ := fun b =>
    match splitChar '.' b with
    | [a] => if digitChars a then some ((digitsToNat a : ℚ)) else none
    | [a, f] =>
      if digitChars a && (f.all Char.isDigit) then
        some ((digitsToNat a : ℚ) + (digitsToNat f : ℚ) / ((10 : ℚ) ^ f.length))
      else if a = [] && digitChars f then
        some ((digitsToNat f : ℚ) / ((10 : ℚ) ^ f.length))
      else none
    | _ => none
  match s.toList with
  | '-' :: rest => (core rest).map (fun q => -q)
  | '+' :: rest => core rest
  | l => core l

/-- An IEEE-754 binary64 value as the program observes it: finite doubles are
exact multiples of `2^-1074`, stored as that integer multiple `z` (so equality
and order of doubles are integer equality and order on `z`); the infinities
are separate points.  `NaN` is unreachable: `float()` only receives decimal
literals here. -/
inductive PyFloat where
  | ninf : PyFloat
  | fin : Int → PyFloat
  | pinf : PyFloat
deriving DecidableEq, Repr

/-- The order on doubles: `-inf` below all finite values, `+inf` above. -/
def PyFloat.le : PyFloat → PyFloat → Prop
  | .ninf, _ => True
  | .fin _, .ninf => False
  | .fin a, .fin b => a ≤ b
  | .fin _, .pinf => True
  | .pinf, .pinf => True
  | .pinf, _ => False

/-- The order on doubles is decidable by computation. -/
def PyFloat.decLe : (a b : PyFloat) → Decidable (PyFloat.le a b)
  | .ninf, .ninf => isTrue trivial
  | .ninf, .fin _ => isTrue trivial
  | .ninf, .pinf => isTrue trivial
  | .fin _, .ninf => isFalse (fun h => h)
  | .fin a, .fin b => inferInstanceAs (Decidable (a ≤ b))
  | .fin _, .pinf => isTrue trivial
  | .pinf, .ninf => isFalse (fun h => h)
  | .pinf, .fin _ => isFalse (fun h => h)
  | .pinf, .pinf => isTrue trivial

instance : LinearOrder PyFloat where
  le := PyFloat.le
  le_refl a := by cases a <;> simp [PyFloat.le]
  le_trans a b c := by cases a <;> cases b <;> cases c <;> simp [PyFloat.le] <;> omega
  le_antisymm a b := by cases a <;> cases b <;> simp [PyFloat.le] <;> omega
  le_total a b := by cases a <;> cases b <;> simp [PyFloat.le] <;> omega
  decidableLE := PyFloat.decLe

/-- `2^k` by binary squaring (the kernel evaluates large powers only through
multiplication). -/
def pow2go : Nat → Nat → Nat
  | 0, _ => 1
  | f + 1, k =>
    if k = 0 then 1
    else
      let h := pow2go f (k / 2)
      if k % 2 = 1 then 2 * h * h else h * h

/-- `2^k` for the exponent range of binary64 (`k < 4096`). -/
def pow2 (k : Nat) : Nat := pow2go 12 k

/-- Round `a / b` to the nearest integer, ties to even. -/
def rneNat (a b : Nat) : Nat :=
  let q := a / b
  let r := a % b
  if 2 * r < b then q
  else if b < 2 * r then q + 1
  else if q % 2 = 0 then q else q + 1

/-- Does `2^e ≤ n / d` hold? -/
def pow2le (e : Int) (n d : Nat) : Bool :=
  if 0 ≤ e then pow2 e.toNat * d ≤ n else d ≤ pow2 (-e).toNat * n

/-- Binary search for the binade: the largest `e` in `[lo, hi)` with
`2^e ≤ n / d`, given `2^lo ≤ n / d < 2^hi`. -/
def findExpGo : Nat → Int → Int → Nat → Nat → Int
  | 0, lo, _, _, _ => lo
  | f + 1, lo, hi, n, d =>
    if hi ≤ lo + 1 then lo
    else
      let mid := (lo + hi) / 2
      if pow2le mid n d then findExpGo f mid hi n d else findExpGo f lo mid n d

/-- Round the positive rational `n / d` to the nearest binary64, as the
multiple of `2^-1074` it equals; `none` is overflow to infinity.  Values below
the normal range round on the fixed subnormal grid `2^-1074`; values in the
binade `[2^e, 2^(e+1))` round on the grid `2^(e-52)`; a result of `2^1024` or
more overflows (so the IEEE threshold `2^1024 - 2^970` is honoured by the
rounding itself). -/
def roundDPos (n d : Nat) : Option Nat :=
  if pow2 1100 * d ≤ n then none
  else if n * pow2 1022 < d then some (rneNat (n * pow2 1074) d)
  else
    let e := findExpGo 20 (-1022) 1100 n d
    let k := if e ≤ 52 then rneNat (n * pow2 (52 - e).toNat) d
      else rneNat n (d * pow2 (e - 52).toNat)
    let z := k * pow2 (e + 1022).toNat
    if pow2 2098 ≤ z then none else some z

/-- IEEE-754 binary64 rounding of an exact rational (round to nearest, ties
to even). -/
def roundD (q : ℚ) : PyFloat :=
  if q.num = 0 then PyFloat.fin 0
  else if 0 < q.num then
    match roundDPos q.num.toNat q.den with
    | none => PyFloat.pinf
    | some z => PyFloat.fin z
  else
    match roundDPos (-q.num).toNat q.den with
    | none => PyFloat.ninf
    | some z => PyFloat.fin (-(z : Int))

/-- Model of `float(s)` for the decimal literals the validator feeds it: the
exact rational value of the literal, rounded to the nearest double. -/
def pyFloat (s : String) : Option PyFloat :=
  (pyFloatQ s).map roundD

/-- Resolution of a Python list index against a length, with negative-index
wrap-around; `none` models `IndexError`. -/
def pyResolveIdx (len : Nat) (i : Int) : Option Nat :=
  if 0 ≤ i ∧ i < len then some i.toNat
  else if -(len : Int) ≤ i ∧ i < 0 then some (i + len).toNat
  else none

/-- Python list subscription `l[i]`, with negative-index wrap-around;
`none` models `IndexError`. -/
def pyListGet (l : List α) (i : Int) : Option α :=
  (pyResolveIdx l.length i).bind l.get?

/-- Python in-place update of `l[i]` by `f`; `none` models `IndexError`. -/
def pyListModify (l : List α) (i : Int) (f : α → α) : Option (List α) :=
  match pyResolveIdx l.length i with
  | none => none
  | some n =>
    match l.get? n with
    | none => none
    | some a => some (l.set n (f a))

/-- `lspec2ud` from the source: `deprel.split(":", 1)[0]`. -/
def lspec2ud (deprel : String) : String :=
  String.mk (deprel.toList.takeWhile (fun c => c ≠ ':'))

/-- One diagnostic: the arguments a check passes to `warn`. -/
structure Diag where
  msg : String
  testclass : String
  testlevel : Nat
  testid : String
  lineno : Bool := true
  nodelineno : Nat := 0
  nodeid : Int := 0
deriving DecidableEq, Repr, Inhabited

/-- Model of Python `repr` on the strings interpolated with `!r`. -/
def pyRepr (s : String) : String :=
  "\x27" ++ s ++ "\x27"

/-- Result of `deps_list(cols)`: the column can be missing (Python returns
`None`), malformed (Python raises `ValueError`), or parsed. -/
inductive DepsRes where
  | noCol : DepsRes
  | malformed : DepsRes
  | ok : List (String × String) → DepsRes
deriving DecidableEq, Repr

/-- Python `s.split(":", 1)`: split at the first colon only. -/
def pySplitOnceColon (s : String) : List String :=
  let l := s.toList
  if l.any (fun c => c = ':') then
    [String.mk (l.takeWhile (fun c => c ≠ ':')),
     String.mk ((l.dropWhile (fun c => c ≠ ':')).tail)]
  else [s]

/-- `deps_list` from the source. -/
def deps_list (cols : UDLine) : DepsRes :=
  if DEPS ≥ cols.length then DepsRes.noCol
  else
    let deps :=
      if colAt cols DEPS = "_" then ([] : List (List String))
      else (pySplit '|' (colAt cols DEPS)).map pySplitOnceColon
    if deps.any (fun hd => hd.length ≠ 2) then DepsRes.malformed
    else DepsRes.ok (deps.map (fun hd => (hd.headD "", (hd.getD 1 ""))))

/-- The basic-layer root checks of `validate_root` for one row. -/
def basic_root_diags (cols : UDLine) : List Diag :=
  if is_word cols then
    if HEAD ≥ cols.length then []
    else
      (if colAt cols HEAD = "0" ∧ colAt cols DEPREL ≠ "root" then
        [{ msg := "DEPREL must be " ++ pyRepr "root" ++ " if HEAD is 0.",
           testclass := "Syntax", testlevel := 2, testid := "0-is-not-root" }]
       else []) ++
      (if colAt cols HEAD ≠ "0" ∧ colAt cols DEPREL = "root" then
        [{ msg := "DEPREL cannot be " ++ pyRepr "root" ++ " if HEAD is not 0.",
           testclass := "Syntax", testlevel := 2, testid := "root-is-not-0" }]
       else [])
  else []

/-- The enhanced-layer root checks of `validate_root` for one DEPS entry. -/
def enhanced_root_entry (hd : String × String) : List Diag :=
  (if hd.1 = "0" ∧ hd.2 ≠ "root" then
    [{ msg := "Enhanced relation type must be " ++ pyRepr "root" ++ " if head is 0.",
       testclass := "Enhanced", testlevel := 2, testid := "enhanced-0-is-not-root" }]
   else []) ++
  (if hd.1 ≠ "0" ∧ hd.2 = "root" then
    [{ msg := "Enhanced relation type cannot be " ++ pyRepr "root" ++ " if head is not 0.",
       testclass := "Enhanced", testlevel := 2, testid := "enhanced-root-is-not-0" }]
   else [])

/-- The enhanced-layer root checks of `validate_root` for one row.  A word row
whose HEAD column is missing hits `continue` in the basic block, which in the
source also skips this block. -/
def enhanced_root_diags (cols : UDLine) : List Diag :=
  if (is_word cols || is_empty_node cols) && !(is_word cols && decide (HEAD ≥ cols.length)) then
    if DEPS ≥ cols.length then []
    else
      match deps_list cols with
      | DepsRes.noCol => []
      | DepsRes.malformed =>
        [{ msg := "Failed to parse DEPS: " ++ pyRepr (colAt cols DEPS) ++ ".",
           testclass := "Format", testlevel := 2, testid := "invalid-deps" }]
      | DepsRes.ok deps => deps.flatMap enhanced_root_entry
  else []

/-- The `validate_root` loop body for one row, in source emission order. -/
def validate_root_row (cols : UDLine) : List Diag :=
  basic_root_diags cols ++ enhanced_root_diags cols

/-- `validate_root` from the source: the per-row checks over the sentence. -/
def validate_root (sentence : List UDLine) : List Diag :=
  sentence.flatMap validate_root_row

/-- Basic-layer root diagnostics. -/
def isBasicRootDiag (d : Diag) : Bool :=
  d.testclass = "Syntax" && (d.testid = "0-is-not-root" || d.testid = "root-is-not-0")

/-- Enhanced-layer root diagnostics. -/
def isEnhancedRootDiag (d : Diag) : Bool :=
  d.testclass = "Enhanced" &&
    (d.testid = "enhanced-0-is-not-root" || d.testid = "enhanced-root-is-not-0")


/-- Count of a predicate over a flatMap. -/
theorem countP_flatMap (l : List α) (f : α → List β) (p : β → Bool) :
    (l.flatMap f).countP p = (l.map (fun a => (f a).countP p)).sum := by
  induction l with
  | nil => rfl
  | cons a t ih => simp [List.countP_append, ih]

/-- A single basic root diagnostic is emitted for a word row exactly when the
HEAD/DEPREL biconditional is violated. -/
theorem basic_root_diags_count (cols : UDLine) (hlen : cols.length = COLCOUNT)
    (hw : is_word cols = true) :
    (basic_root_diags cols).countP isBasicRootDiag =
      (if (colAt cols HEAD = "0" ∧ colAt cols DEPREL ≠ "root")
          ∨ (colAt cols HEAD ≠ "0" ∧ colAt cols DEPREL = "root") then 1 else 0) := by
  have hh : ¬ (HEAD ≥ cols.length) := by
    rw [hlen]; decide
  by_cases h1 : colAt cols HEAD = "0" ∧ colAt cols DEPREL ≠ "root"
  · by_cases h2 : colAt cols HEAD ≠ "0" ∧ colAt cols DEPREL = "root"
    · exact absurd h1.1 h2.1
    · simp [basic_root_diags, hw, hh, h1, h2, isBasicRootDiag, List.countP_cons]
  · by_cases h2 : colAt cols HEAD ≠ "0" ∧ colAt cols DEPREL = "root"
    · simp [basic_root_diags, hw, hh, h1, h2, isBasicRootDiag, List.countP_cons]
    · simp [basic_root_diags, hw, hh, h1, h2]

/-- Basic root diagnostics are never emitted by the enhanced block. -/
theorem enhanced_root_diags_no_basic (cols : UDLine) :
    (enhanced_root_diags cols).countP isBasicRootDiag = 0 := by
  rw [List.countP_eq_zero]
  intro d hd
  unfold enhanced_root_diags at hd
  split at hd
  · split at hd
    · simp at hd
    · split at hd
      · simp at hd
      · simp at hd
        rw [hd]
        simp [isBasicRootDiag]
      · rcases List.mem_flatMap.mp hd with ⟨e, _, hde⟩
        unfold enhanced_root_entry at hde
        rcases List.mem_append.mp hde with h | h <;> split at h <;> simp at h <;>
          rw [h] <;> simp [isBasicRootDiag]
  · simp at hd

/-- Enhanced root diagnostics are never emitted by the basic block. -/
theorem basic_root_diags_no_enhanced (cols : UDLine) :
    (basic_root_diags cols).countP isEnhancedRootDiag = 0 := by
  rw [List.countP_eq_zero]
  intro d hd
  unfold basic_root_diags at hd
  split at hd
  · split at hd
    · simp at hd
    · rcases List.mem_append.mp hd with h | h <;> split at h <;> simp at h <;>
        rw [h] <;> simp [isEnhancedRootDiag]
  · simp at hd

/-- Per-entry count of enhanced root diagnostics. -/
theorem enhanced_root_entry_count (hd : String × String) :
    (enhanced_root_entry hd).countP isEnhancedRootDiag =
      (if (hd.1 = "0" ∧ hd.2 ≠ "root") ∨ (hd.1 ≠ "0" ∧ hd.2 = "root") then 1 else 0) := by
  by_cases h1 : hd.1 = "0" ∧ hd.2 ≠ "root"
  · by_cases h2 : hd.1 ≠ "0" ∧ hd.2 = "root"
    · exact absurd h1.1 h2.1
    · simp [enhanced_root_entry, h1, h2, isEnhancedRootDiag, List.countP_cons]
  · by_cases h2 : hd.1 ≠ "0" ∧ hd.2 = "root"
    · simp [enhanced_root_entry, h1, h2, isEnhancedRootDiag, List.countP_cons]
    · simp [enhanced_root_entry, h1, h2]

/-- Summing an indicator over a list is counting. -/
theorem sum_map_ite_count (l : List α) (p : α → Prop) [DecidablePred p] :
    (l.map (fun a => if p a then 1 else 0)).sum = l.countP (fun a => decide (p a)) := by
  induction l with
  | nil => rfl
  | cons a t ih =>
    by_cases h : p a <;> simp [List.countP_cons, h, ih] <;> omega

/-- Enhanced root count for a full row. -/
theorem enhanced_root_diags_count (cols : UDLine) (ds : List (String × String))
    (hlen : cols.length = COLCOUNT)
    (hwe : is_word cols = true ∨ is_empty_node cols = true)
    (hds : deps_list cols = DepsRes.ok ds) :
    (enhanced_root_diags cols).countP isEnhancedRootDiag =
      ds.countP (fun hd =>
        decide ((hd.1 = "0" ∧ hd.2 ≠ "root") ∨ (hd.1 ≠ "0" ∧ hd.2 = "root"))) := by
  have hh : ¬ (HEAD ≥ cols.length) := by rw [hlen]; decide
  have hd8 : ¬ (DEPS ≥ cols.length) := by rw [hlen]; decide
  have hcond : ((is_word cols || is_empty_node cols) &&
      !(is_word cols && decide (HEAD ≥ cols.length))) = true := by
    rcases hwe with h | h <;> simp [h, hh]
  unfold enhanced_root_diags
  rw [if_pos hcond, if_neg hd8, hds]
  rw [countP_flatMap]
  have : (fun e => (enhanced_root_entry e).countP isEnhancedRootDiag) =
      (fun e : String × String =>
        if (e.1 = "0" ∧ e.2 ≠ "root") ∨ (e.1 ≠ "0" ∧ e.2 = "root") then 1 else 0) := by
    funext e
    exact enhanced_root_entry_count e
  rw [this, sum_map_ite_count]

/-- C5: at conformance level 2 or higher, for every word row with parseable
columns, a basic-layer root diagnostic is emitted exactly when (HEAD is `0`
and DEPREL is not `root`) or (HEAD is not `0` and DEPREL is `root`), and — so
in particular DEPREL `root` on a non-zero-HEAD row yields exactly one Syntax
diagnostic; independently, for every DEPS entry of a word or empty-node row,
an enhanced-layer diagnostic is emitted exactly when (head is `0` and relation
is not `root`) or (head is not `0` and relation is `root`); the per-sentence
check is the concatenation of the per-row checks, so processing continues
after every such diagnostic. -/
theorem claim_C5_root_biconditional :
    (∀ cols : UDLine, cols.length = COLCOUNT → is_word cols = true →
      (validate_root_row cols).countP isBasicRootDiag =
        (if (colAt cols HEAD = "0" ∧ colAt cols DEPREL ≠ "root")
            ∨ (colAt cols HEAD ≠ "0" ∧ colAt cols DEPREL = "root") then 1 else 0)) ∧
    (∀ cols : UDLine, ∀ ds : List (String × String), cols.length = COLCOUNT →
      (is_word cols = true ∨ is_empty_node cols = true) →
      deps_list cols = DepsRes.ok ds →
      (validate_root_row cols).countP isEnhancedRootDiag =
        ds.countP (fun hd =>
          decide ((hd.1 = "0" ∧ hd.2 ≠ "root") ∨ (hd.1 ≠ "0" ∧ hd.2 = "root")))) ∧
    (∀ sentence : List UDLine, ∀ p : Diag → Bool,
      (validate_root sentence).countP p =
        (sentence.map (fun cols => (validate_root_row cols).countP p)).sum) := by
  refine ⟨?_, ?_, ?_⟩
  · intro cols hlen hw
    unfold validate_root_row
    rw [List.countP_append, enhanced_root_diags_no_basic, basic_root_diags_count cols hlen hw]
    omega
  · intro cols ds hlen hwe hds
    unfold validate_root_row
    rw [List.countP_append, basic_root_diags_no_enhanced,
      enhanced_root_diags_count cols ds hlen hwe hds]
    omega
  · intro sentence p
    unfold validate_root
    exact countP_flatMap sentence validate_root_row p

/-- Witness for C5: a concrete word row with DEPREL `root` and HEAD `2`
produces exactly one basic Syntax diagnostic; its sorted DEPS entry `0:root`
produces no enhanced diagnostic. -/
theorem claim_C5_root_biconditional_witness :
    (validate_root_row (["1", "Cats", "cat", "NOUN", "_", "_", "2", "root", "0:root", "_"] :
        List String)).countP isBasicRootDiag = 1 ∧
    (validate_root_row (["1", "Cats", "cat", "NOUN", "_", "_", "2", "root", "0:root", "_"] :
        List String)).countP isEnhancedRootDiag = 0 := by
  constructor
  · rw [claim_C5_root_biconditional.1
      (["1", "Cats", "cat", "NOUN", "_", "_", "2", "root", "0:root", "_"] : List String)
      (by decide) (by decide)]
    decide
  · rw [claim_C5_root_biconditional.2.1
      (["1", "Cats", "cat", "NOUN", "_", "_", "2", "root", "0:root", "_"] : List String)
      [("0", "root")] (by decide) (Or.inl (by decide)) (by decide)]
    decide

/-- The `invalid-deps` diagnostic of `validate_deps`. -/
def invalid_deps_diag (cols : UDLine) (node_line : Nat) : Diag :=
  { msg := "Failed to parse DEPS: " ++ pyRepr (colAt cols DEPS) ++ ".",
    testclass := "Format", testlevel := 2, testid := "invalid-deps",
    nodelineno := node_line }

/-- The `unsorted-deps` diagnostic of `validate_deps`. -/
def unsorted_deps_diag (cols : UDLine) (node_line : Nat) : Diag :=
  { msg := "DEPS not sorted by head index: " ++ pyRepr (colAt cols DEPS),
    testclass := "Format", testlevel := 2, testid := "unsorted-deps",
    nodelineno := node_line }

/-- The `unsorted-deps-2` diagnostic of `validate_deps`. -/
def unsorted_deps2_diag (h : String) (cols : UDLine) (node_line : Nat) : Diag :=
  { msg := "DEPS pointing to head " ++ pyRepr h ++ " not sorted by relation type: " ++
      pyRepr (colAt cols DEPS),
    testclass := "Format", testlevel := 2, testid := "unsorted-deps-2",
    nodelineno := node_line }

/-- The `repeated-deps` diagnostic of `validate_deps`. -/
def repeated_deps_diag (h d : String) (cols : UDLine) (node_line : Nat) : Diag :=
  { msg := "DEPS contain multiple instances of the same relation " ++ pyRepr (h ++ ":" ++ d),
    testclass := "Format", testlevel := 2, testid := "repeated-deps",
    nodelineno := node_line }

/-- The `deps-self-loop` diagnostic of `validate_deps`. -/
def deps_self_loop_diag (cols : UDLine) (node_line : Nat) : Diag :=
  { msg := "Self-loop in DEPS for " ++ pyRepr (colAt cols ID),
    testclass := "Enhanced", testlevel := 2, testid := "deps-self-loop",
    nodelineno := node_line }

/-- The adjacent-entry scan of `validate_deps` (the `lasth`/`lastd` loop),
run when the head sequence is already sorted. -/
def scan_deps (cols : UDLine) (node_line : Nat) :
    Option (String × String) → List (String × String) → List Diag
  | _, [] => []
  | prev, e :: rest =>
    (match prev with
     | none => []
     | some p =>
       if e.1 = p.1 then
         if decide (e.2 < p.2) then [unsorted_deps2_diag e.1 cols node_line]
         else if e.2 = p.2 then [repeated_deps_diag e.1 e.2 cols node_line]
         else []
       else []) ++ scan_deps cols node_line (some e) rest

/-- Result of the `validate_deps` loop body on one row: `go` continues with
the next row, `halt` models the source's early `return` from the check. -/
inductive DepsRowRes where
  | go : List Diag → DepsRowRes
  | halt : List Diag → DepsRowRes
deriving DecidableEq, Repr

/-- The diagnostics carried by a `DepsRowRes`. -/
def depsRowDiags : DepsRowRes → List Diag
  | DepsRowRes.go l => l
  | DepsRowRes.halt l => l

/-- The `validate_deps` loop body for one row.  (`DepsRes.noCol` is
unreachable: the source tests `DEPS >= len(cols)` first.) -/
def validate_deps_row (cols : UDLine) (node_line : Nat) : DepsRowRes :=
  if ¬ (is_word cols || is_empty_node cols) then DepsRowRes.go []
  else if DEPS ≥ cols.length then DepsRowRes.go []
  else
    match deps_list cols with
    | DepsRes.noCol => DepsRowRes.go []
    | DepsRes.malformed => DepsRowRes.halt [invalid_deps_diag cols node_line]
    | DepsRes.ok ds =>
      let optHeads := ds.map (fun e => pyFloat e.1)
      if none ∈ optHeads then DepsRowRes.halt [invalid_deps_diag cols node_line]
      else
        let heads := optHeads.reduceOption
        let sortDiags :=
          if heads ≠ heads.mergeSort then [unsorted_deps_diag cols node_line]
          else scan_deps cols node_line none ds
        match pyFloat (colAt cols ID) with
        | none => DepsRowRes.halt sortDiags
        | some idq =>
          DepsRowRes.go
            (sortDiags ++ (if idq ∈ heads then [deps_self_loop_diag cols node_line] else []))

/-- The `validate_deps` loop over a sentence, threading `node_line`. -/
def validate_deps_go (sentence : List UDLine) (node_line : Nat) : List Diag :=
  match sentence with
  | [] => []
  | cols :: rest =>
    match validate_deps_row cols (node_line + 1) with
    | DepsRowRes.go ds => ds ++ validate_deps_go rest (node_line + 1)
    | DepsRowRes.halt ds => ds

/-- `validate_deps` from the source. -/
def validate_deps (sentence : List UDLine) (sentence_line : Nat) : List Diag :=
  validate_deps_go sentence (sentence_line - 1)

/-- DEPS-ordering diagnostics (as opposed to parse or self-loop ones). -/
def isDepsOrderDiag (d : Diag) : Bool :=
  d.testid = "unsorted-deps" || d.testid = "unsorted-deps-2" || d.testid = "repeated-deps"

/-- The exact numeric head of a DEPS entry, before rounding (total version;
meaningful whenever the head parses). -/
def headQ (e : String × String) : ℚ :=
  (pyFloatQ e.1).getD 0

/-- The head of a DEPS entry as the program sees it: a double (total version;
meaningful whenever the head parses). -/
def headD (e : String × String) : PyFloat :=
  (pyFloat e.1).getD (PyFloat.fin 0)

/-- Adjacent-entry condition for a DEPS list sorted by the head doubles and
then by relation string. -/
def depsSortedStep (a b : String × String) : Prop :=
  headD a < headD b ∨ (headD a = headD b ∧ ¬ (b.2 < a.2))

instance (a b : String × String) : Decidable (depsSortedStep a b) :=
  inferInstanceAs (Decidable (headD a < headD b ∨ (headD a = headD b ∧ ¬ (b.2 < a.2))))

/-- Condition under which the adjacent scan of `validate_deps` emits nothing
for the step from `p` to `e`. -/
def scanOk (p e : String × String) : Prop :=
  p.1 = e.1 → (¬ (e.2 < p.2) ∧ e.2 ≠ p.2)

/-- A sorted step between distinct entries passes the adjacent scan. -/
theorem scanOk_of_step {p e : String × String}
    (hstep : depsSortedStep p e) (hne : p ≠ e) : scanOk p e := by
  intro h1
  rcases hstep with h | ⟨hq, hrel⟩
  · exact absurd h (by simp [headD, h1] at h ⊢)
  · exact ⟨hrel, fun h2 => hne (Prod.ext h1 h2.symm)⟩

/-- The scan emits nothing along a chain of `scanOk` steps. -/
theorem scan_deps_nil_of_chain (cols : UDLine) (nl : Nat) :
    ∀ (l : List (String × String)) (p : String × String),
      List.Chain scanOk p l → scan_deps cols nl (some p) l = [] := by
  intro l
  induction l with
  | nil => intro p _; rfl
  | cons e rest ih =>
    intro p hch
    rcases List.chain_cons.mp hch with ⟨hok, hch'⟩
    show (if e.1 = p.1 then _ else _) ++ _ = _
    rw [ih e hch']
    by_cases h1 : e.1 = p.1
    · rcases hok h1.symm with ⟨hlt, hne⟩
      simp [h1, hlt, hne]
    · simp [h1]

/-- The scan with no previous entry along an `scanOk`-chained list. -/
theorem scan_deps_nil_of_chain' (cols : UDLine) (nl : Nat)
    (l : List (String × String)) (h : List.Chain' scanOk l) :
    scan_deps cols nl none l = [] := by
  cases l with
  | nil => rfl
  | cons e rest =>
    show ([] : List Diag) ++ _ = _
    rw [List.nil_append]
    exact scan_deps_nil_of_chain cols nl rest e h

/-- Combining two chains over the same list. -/
theorem chain'_and {R S : α → α → Prop} :
    ∀ {l : List α}, List.Chain' R l → List.Chain' S l →
      List.Chain' (fun a b => R a b ∧ S a b) l
  | [], _, _ => List.chain'_nil
  | [_], _, _ => List.chain'_singleton _
  | _ :: _ :: _, hr, hs =>
    List.chain'_cons.mpr
      ⟨⟨(List.chain'_cons.mp hr).1, (List.chain'_cons.mp hs).1⟩,
        chain'_and (List.chain'_cons.mp hr).2 (List.chain'_cons.mp hs).2⟩

/-- The scan over a list with one entry duplicated emits exactly the
`repeated-deps` diagnostic, provided the rest of the walk is `scanOk`. -/
theorem scan_deps_dup_of_chain (cols : UDLine) (nl : Nat) (e : String × String)
    (l2 : List (String × String)) :
    ∀ (l1 : List (String × String)) (p : String × String),
      List.Chain scanOk p (l1 ++ e :: l2) →
      scan_deps cols nl (some p) (l1 ++ e :: e :: l2) =
        [repeated_deps_diag e.1 e.2 cols nl] := by
  intro l1
  induction l1 with
  | nil =>
    intro p hch
    rcases List.chain_cons.mp hch with ⟨hok, hch'⟩
    show (if e.1 = p.1 then _ else _) ++
      ((if e.1 = e.1 then _ else _) ++ scan_deps cols nl (some e) l2) = _
    rw [scan_deps_nil_of_chain cols nl l2 e hch']
    have hfirst : (if e.1 = p.1 then
        (if decide (e.2 < p.2) then [unsorted_deps2_diag e.1 cols nl]
         else if e.2 = p.2 then [repeated_deps_diag e.1 e.2 cols nl]
         else []) else ([] : List Diag)) = [] := by
      by_cases h1 : e.1 = p.1
      · rcases hok h1.symm with ⟨hlt, hne⟩
        simp [h1, hlt, hne]
      · simp [h1]
    rw [hfirst]
    simp [lt_irrefl]
  | cons a l1' ih =>
    intro p hch
    rcases List.chain_cons.mp hch with ⟨hok, hch'⟩
    show (if a.1 = p.1 then _ else _) ++ _ = _
    simp only [List.append_eq] at hch' ⊢
    rw [ih a hch']
    by_cases h1 : a.1 = p.1
    · rcases hok h1.symm with ⟨hlt, hne⟩
      simp [h1, hlt, hne]
    · simp [h1]

/-- Top-level scan over a list with one duplicated entry. -/
theorem scan_deps_dup_of_chain' (cols : UDLine) (nl : Nat) (e : String × String)
    (l1 l2 : List (String × String))
    (h : List.Chain' scanOk (l1 ++ e :: l2)) :
    scan_deps cols nl none (l1 ++ e :: e :: l2) =
      [repeated_deps_diag e.1 e.2 cols nl] := by
  cases l1 with
  | nil =>
    show ([] : List Diag) ++
      ((if e.1 = e.1 then _ else _) ++ scan_deps cols nl (some e) l2) = _
    rw [scan_deps_nil_of_chain cols nl l2 e h]
    simp [lt_irrefl]
  | cons a l1' =>
    show ([] : List Diag) ++ _ = _
    rw [List.nil_append]
    exact scan_deps_dup_of_chain cols nl e l2 l1' a h

/-- Reducing the DEPS head options when every head parses. -/
theorem heads_reduce (l : List (String × String))
    (h : ∀ e ∈ l, (pyFloat e.1).isSome) :
    (l.map (fun e => pyFloat e.1)).reduceOption = l.map headD ∧
      none ∉ l.map (fun e => pyFloat e.1) := by
  induction l with
  | nil => exact ⟨rfl, by simp⟩
  | cons a t ih =>
    have ha := h a (by simp)
    rcases Option.isSome_iff_exists.mp ha with ⟨q, hq⟩
    have iht := ih (fun e he => h e (by simp [he]))
    constructor
    · simp only [List.map_cons, hq, List.reduceOption_cons_of_some, iht.1]
      have : headD a = q := by simp [headD, hq]
      rw [this]
    · simp only [List.map_cons, List.mem_cons]
      rintro (hc | hc)
      · rw [hq] at hc; exact Option.noConfusion hc.symm
      · exact iht.2 hc

/-- Mapping commutes with `List.set`. -/
theorem map_set' (f : α → β) : ∀ (l : List α) (n : Nat) (a : α),
    (l.set n a).map f = (l.map f).set n (f a)
  | [], _, _ => rfl
  | _ :: _, 0, _ => rfl
  | x :: t, n + 1, a => by
    simp only [List.set, List.map_cons]
    rw [map_set' f t n a]

/-- Duplicating an element of a chain keeps it a chain when the relation is
reflexive at that element. -/
theorem chain'_dup {R : α → α → Prop} (x : α) (hx : R x x) (a b : List α)
    (h : List.Chain' R (a ++ x :: b)) : List.Chain' R (a ++ x :: x :: b) := by
  rw [List.chain'_append] at h ⊢
  refine ⟨h.1, List.chain'_cons.mpr ⟨hx, h.2.1⟩, ?_⟩
  simpa using h.2.2

/-- A step of the DEPS sort order is monotone on the head doubles. -/
theorem depsSortedStep_le {a b : String × String} (h : depsSortedStep a b) :
    headD a ≤ headD b := by
  rcases h with h | ⟨h, _⟩
  · exact le_of_lt h
  · exact le_of_eq h

/-- The head sequence of a sorted DEPS list is sorted. -/
theorem heads_sorted_of_chain {ds : List (String × String)}
    (h : List.Chain' depsSortedStep ds) : (ds.map headD).Sorted (· ≤ ·) := by
  have h1 : List.Chain' (fun a b : PyFloat => a ≤ b) (ds.map headD) := by
    rw [List.chain'_map]
    exact h.imp (fun a b hab => depsSortedStep_le hab)
  exact List.chain'_iff_pairwise.mp h1

/-- A sorted and duplicate-free DEPS list is `scanOk`-chained. -/
theorem scanOk_chain_of_sorted {ds : List (String × String)}
    (hs : List.Chain' depsSortedStep ds) (hnd : ds.Nodup) :
    List.Chain' scanOk ds := by
  have hne : List.Chain' (fun a b : String × String => a ≠ b) ds := hnd.chain'
  exact (chain'_and hs hne).imp (fun a b hab => scanOk_of_step hab.1 hab.2)

/-- The self-loop tail of the `validate_deps` row body contains no ordering
diagnostic. -/
theorem selfloop_part_no_order (cols : UDLine) (nl : Nat) (heads : List PyFloat) :
    ∀ r : Option PyFloat,
      (match r with
        | none => ([] : List Diag)
        | some idq => if idq ∈ heads then [deps_self_loop_diag cols nl] else []).countP
        isDepsOrderDiag = 0
  | none => rfl
  | some idq => by
    by_cases h : idq ∈ heads <;>
      simp [h, isDepsOrderDiag, deps_self_loop_diag, List.countP_cons]

/-- Unfolding of the `validate_deps` row body on a row whose DEPS parse and
whose heads all parse as floats. -/
theorem validate_deps_row_ok (cols : UDLine) (nl : Nat) (ds : List (String × String))
    (hlen : cols.length = COLCOUNT)
    (hwe : is_word cols = true ∨ is_empty_node cols = true)
    (hds : deps_list cols = DepsRes.ok ds)
    (hparse : ∀ e ∈ ds, (pyFloat e.1).isSome) :
    depsRowDiags (validate_deps_row cols nl) =
      (if ds.map headD ≠ (ds.map headD).mergeSort then [unsorted_deps_diag cols nl]
       else scan_deps cols nl none ds) ++
      (match pyFloat (colAt cols ID) with
        | none => ([] : List Diag)
        | some idq => if idq ∈ ds.map headD then [deps_self_loop_diag cols nl] else []) := by
  have hred := heads_reduce ds hparse
  have hwe' : (is_word cols || is_empty_node cols) = true := by
    rcases hwe with h | h <;> simp [h]
  have hd8 : ¬ (DEPS ≥ cols.length) := by rw [hlen]; decide
  unfold validate_deps_row
  rw [if_neg (by simp [hwe']), if_neg hd8, hds]
  simp only [if_neg (by simpa using hred.2 : ¬ (none ∈ ds.map (fun e => pyFloat e.1)))]
  rw [hred.1]
  cases hid : pyFloat (colAt cols ID) with
  | none => simp [depsRowDiags]
  | some idq => simp [depsRowDiags]

/-- Reading back the element just written by `List.set`. -/
theorem get_set_same : ∀ (l : List α) (n : Nat) (a : α) (h : n < (l.set n a).length),
    (l.set n a).get ⟨n, h⟩ = a
  | [], n, _, h => by simp at h
  | _ :: _, 0, _, _ => rfl
  | _ :: t, n + 1, a, h => get_set_same t n a (by simpa using h)

/-- Reading another position after `List.set`. -/
theorem get_set_other : ∀ (l : List α) (m n : Nat) (a : α) (_ : m ≠ n)
    (h : n < (l.set m a).length),
    (l.set m a).get ⟨n, h⟩ = l.get ⟨n, by simpa using h⟩
  | [], _, _, _, _, h => by simp at h
  | _ :: _, 0, 0, _, hmn, _ => absurd rfl hmn
  | _ :: _, 0, _ + 1, _, _, _ => rfl
  | _ :: _, _ + 1, 0, _, _, _ => rfl
  | _ :: t, m + 1, n + 1, a, hmn, h =>
    get_set_other t m n a (fun he => hmn (by rw [he])) (by simpa using h)

/-- Swapping two positions holding different values in a sorted list breaks
sortedness. -/
theorem swap_not_sorted {α : Type} [LinearOrder α] (qs : List α)
    (i j : Fin qs.length) (hij : i < j)
    (hne : qs.get i ≠ qs.get j) (hs : qs.Sorted (· ≤ ·)) :
    ¬ ((qs.set i.val (qs.get j)).set j.val (qs.get i)).Sorted (· ≤ ·) := by
  intro hs'
  have hlen : ((qs.set i.val (qs.get j)).set j.val (qs.get i)).length = qs.length := by
    simp
  have hiv : i.val < ((qs.set i.val (qs.get j)).set j.val (qs.get i)).length := by
    rw [hlen]; exact i.isLt
  have hjv : j.val < ((qs.set i.val (qs.get j)).set j.val (qs.get i)).length := by
    rw [hlen]; exact j.isLt
  have hne' : i.val ≠ j.val := Fin.val_ne_of_ne (ne_of_lt hij)
  have hvi : ((qs.set i.val (qs.get j)).set j.val (qs.get i)).get ⟨i.val, hiv⟩ = qs.get j := by
    rw [get_set_other (qs.set i.val (qs.get j)) j.val i.val (qs.get i) (fun h => hne' h.symm)]
    exact get_set_same qs i.val (qs.get j) (by simpa using i.isLt)
  have hvj : ((qs.set i.val (qs.get j)).set j.val (qs.get i)).get ⟨j.val, hjv⟩ = qs.get i :=
    get_set_same _ j.val (qs.get i) hjv
  have hle := hs'.rel_get_of_lt (a := ⟨i.val, hiv⟩) (b := ⟨j.val, hjv⟩) (by
    simpa using hij)
  rw [hvi, hvj] at hle
  have hle' := hs.rel_get_of_lt (a := i) (b := j) hij
  exact hne (le_antisymm hle' hle)

/-- The self-loop tail contributes nothing to any count that ignores
`deps-self-loop`. -/
theorem selfloop_part_count (cols : UDLine) (nl : Nat) (heads : List PyFloat)
    (p : Diag → Bool) (hp : p (deps_self_loop_diag cols nl) = false) :
    ∀ r : Option PyFloat,
      (match r with
        | none => ([] : List Diag)
        | some idq => if idq ∈ heads then [deps_self_loop_diag cols nl] else []).countP p = 0
  | none => rfl
  | some idq => by
    by_cases h : idq ∈ heads <;> simp [h, List.countP_cons, hp]

/-- C6 (amended): for a word or empty-node row with parseable DEPS whose
heads all parse: a DEPS list sorted by (head, relation) without duplicate
pairs yields zero ordering diagnostics; swapping two entries whose heads
differ AS DOUBLES - the comparison the program performs after `float()` -
yields exactly one diagnostic, the `unsorted-deps` one; duplicating one entry
of a sorted duplicate-free list yields exactly one diagnostic, the
`repeated-deps` one.  The claim as stated, over entries with differing
numeric heads, fails when two distinct decimals round to the same double
(counterexample below). -/
theorem claim_C6_deps_order_amended :
    (∀ (cols : UDLine) (nl : Nat) (ds : List (String × String)),
      cols.length = COLCOUNT →
      (is_word cols = true ∨ is_empty_node cols = true) →
      deps_list cols = DepsRes.ok ds →
      (∀ e ∈ ds, (pyFloat e.1).isSome) →
      List.Chain' depsSortedStep ds → ds.Nodup →
      (depsRowDiags (validate_deps_row cols nl)).countP isDepsOrderDiag = 0) ∧
    (∀ (cols : UDLine) (nl : Nat) (ds : List (String × String)) (i j : Fin ds.length),
      cols.length = COLCOUNT →
      (is_word cols = true ∨ is_empty_node cols = true) →
      (∀ e ∈ ds, (pyFloat e.1).isSome) →
      List.Chain' depsSortedStep ds → ds.Nodup →
      i < j → headD (ds.get i) ≠ headD (ds.get j) →
      deps_list cols = DepsRes.ok ((ds.set i.val (ds.get j)).set j.val (ds.get i)) →
      (depsRowDiags (validate_deps_row cols nl)).countP isDepsOrderDiag = 1 ∧
      (depsRowDiags (validate_deps_row cols nl)).countP
        (fun d => decide (d.testid = "unsorted-deps")) = 1) ∧
    (∀ (cols : UDLine) (nl : Nat) (l1 l2 : List (String × String)) (e : String × String),
      cols.length = COLCOUNT →
      (is_word cols = true ∨ is_empty_node cols = true) →
      (∀ x ∈ l1 ++ e :: l2, (pyFloat x.1).isSome) →
      List.Chain' depsSortedStep (l1 ++ e :: l2) → (l1 ++ e :: l2).Nodup →
      deps_list cols = DepsRes.ok (l1 ++ e :: e :: l2) →
      (depsRowDiags (validate_deps_row cols nl)).countP isDepsOrderDiag = 1 ∧
      (depsRowDiags (validate_deps_row cols nl)).countP
        (fun d => decide (d.testid = "repeated-deps")) = 1) := by
  refine ⟨?_, ?_, ?_⟩
  · intro cols nl ds hlen hwe hds hparse hsort hnd
    rw [validate_deps_row_ok cols nl ds hlen hwe hds hparse, List.countP_append]
    have hms : (ds.map headD).mergeSort = ds.map headD :=
      List.mergeSort_eq_self (heads_sorted_of_chain hsort)
    rw [if_neg (by rw [hms]; exact fun h => h rfl)]
    rw [scan_deps_nil_of_chain' cols nl ds (scanOk_chain_of_sorted hsort hnd)]
    rw [selfloop_part_count cols nl (ds.map headD) isDepsOrderDiag
      (by simp [isDepsOrderDiag, deps_self_loop_diag]) (pyFloat (colAt cols ID))]
    rfl
  · intro cols nl ds i j hlen hwe hparse hsort hnd hij hneq hds
    have hparse' : ∀ e ∈ (ds.set i.val (ds.get j)).set j.val (ds.get i),
        (pyFloat e.1).isSome := by
      intro e he
      rcases List.mem_or_eq_of_mem_set he with he' | he'
      · rcases List.mem_or_eq_of_mem_set he' with he'' | he''
        · exact hparse e he''
        · rw [he'']; exact hparse _ (List.get_mem ds j.val j.isLt)
      · rw [he']; exact hparse _ (List.get_mem ds i.val i.isLt)
    have hmap : ((ds.set i.val (ds.get j)).set j.val (ds.get i)).map headD =
        ((ds.map headD).set i.val (headD (ds.get j))).set j.val (headD (ds.get i)) := by
      rw [map_set', map_set']
    have hlenq : (ds.map headD).length = ds.length := by simp
    have hiq : i.val < (ds.map headD).length := by rw [hlenq]; exact i.isLt
    have hjq : j.val < (ds.map headD).length := by rw [hlenq]; exact j.isLt
    have hgi : (ds.map headD).get ⟨i.val, hiq⟩ = headD (ds.get i) := by
      rw [List.get_map]
    have hgj : (ds.map headD).get ⟨j.val, hjq⟩ = headD (ds.get j) := by
      rw [List.get_map]
    have hnotsorted : ¬ (((ds.set i.val (ds.get j)).set j.val (ds.get i)).map headD).Sorted
        (· ≤ ·) := by
      rw [hmap, ← hgi, ← hgj]
      exact swap_not_sorted (ds.map headD) ⟨i.val, hiq⟩ ⟨j.val, hjq⟩ (by simpa using hij)
        (by rw [hgi, hgj]; exact hneq) (heads_sorted_of_chain hsort)
    have hcond : ((ds.set i.val (ds.get j)).set j.val (ds.get i)).map headD ≠
        (((ds.set i.val (ds.get j)).set j.val (ds.get i)).map headD).mergeSort := by
      intro h
      exact hnotsorted (by rw [h]; exact List.sorted_mergeSort' _)
    rw [validate_deps_row_ok cols nl _ hlen hwe hds hparse', List.countP_append,
      List.countP_append, if_pos hcond]
    constructor
    · rw [selfloop_part_count cols nl _ isDepsOrderDiag
        (by simp [isDepsOrderDiag, deps_self_loop_diag]) (pyFloat (colAt cols ID))]
      simp [List.countP_cons, isDepsOrderDiag, unsorted_deps_diag]
    · rw [selfloop_part_count cols nl _ (fun d => decide (d.testid = "unsorted-deps"))
        (by simp [deps_self_loop_diag]) (pyFloat (colAt cols ID))]
      simp [List.countP_cons, unsorted_deps_diag]
  · intro cols nl l1 l2 e hlen hwe hparse hsort hnd hds
    have hparse' : ∀ x ∈ l1 ++ e :: e :: l2, (pyFloat x.1).isSome := by
      intro x hx
      apply hparse
      rcases List.mem_append.mp hx with h | h
      · exact List.mem_append.mpr (Or.inl h)
      · rcases List.mem_cons.mp h with h' | h'
        · exact List.mem_append.mpr (Or.inr (by rw [h']; exact List.mem_cons_self _ _))
        · exact List.mem_append.mpr (Or.inr h')
    have hsorted' : ((l1 ++ e :: e :: l2).map headD).Sorted (· ≤ ·) := by
      have hchain : List.Chain' (fun a b : PyFloat => a ≤ b) ((l1 ++ e :: l2).map headD) :=
        List.chain'_iff_pairwise.mpr (heads_sorted_of_chain hsort)
      have : (l1 ++ e :: l2).map headD = l1.map headD ++ headD e :: l2.map headD := by
        simp
      rw [this] at hchain
      have hdup := chain'_dup (headD e) (le_refl _) (l1.map headD) (l2.map headD) hchain
      have h2 : (l1 ++ e :: e :: l2).map headD =
          l1.map headD ++ headD e :: headD e :: l2.map headD := by simp
      rw [h2]
      exact List.chain'_iff_pairwise.mp hdup
    have hms : ((l1 ++ e :: e :: l2).map headD).mergeSort = (l1 ++ e :: e :: l2).map headD :=
      List.mergeSort_eq_self hsorted'
    rw [validate_deps_row_ok cols nl _ hlen hwe hds hparse', List.countP_append,
      List.countP_append, if_neg (by rw [hms]; exact fun h => h rfl)]
    rw [scan_deps_dup_of_chain' cols nl e l1 l2 (scanOk_chain_of_sorted hsort hnd)]
    constructor
    · rw [selfloop_part_count cols nl _ isDepsOrderDiag
        (by simp [isDepsOrderDiag, deps_self_loop_diag]) (pyFloat (colAt cols ID))]
      simp [List.countP_cons, isDepsOrderDiag, repeated_deps_diag]
    · rw [selfloop_part_count cols nl _ (fun d => decide (d.testid = "repeated-deps"))
        (by simp [deps_self_loop_diag]) (pyFloat (colAt cols ID))]
      simp [List.countP_cons, repeated_deps_diag]

/-- Witness for C6 (amended): a sorted DEPS row emits no ordering
diagnostic, its head-swapped variant (heads 1 and 2, distinct as doubles)
exactly one `unsorted-deps`, and its duplicated-entry variant exactly one
`repeated-deps`. -/
theorem claim_C6_deps_order_amended_witness :
    (depsRowDiags (validate_deps_row
        (["1", "a", "a", "N", "_", "_", "2", "dep", "1:conj|2:conj", "_"] : List String)
        5)).countP isDepsOrderDiag = 0 ∧
    (depsRowDiags (validate_deps_row
        (["1", "a", "a", "N", "_", "_", "2", "dep", "2:conj|1:conj", "_"] : List String)
        5)).countP (fun d => decide (d.testid = "unsorted-deps")) = 1 ∧
    (depsRowDiags (validate_deps_row
        (["1", "a", "a", "N", "_", "_", "2", "dep", "1:conj|2:conj|2:conj", "_"] : List String)
        5)).countP (fun d => decide (d.testid = "repeated-deps")) = 1 := by
  have hch : List.Chain' depsSortedStep [("1", "conj"), ("2", "conj")] :=
    List.chain'_pair.mpr (by decide)
  refine ⟨?_, ?_, ?_⟩
  · exact claim_C6_deps_order_amended.1 _ 5 [("1", "conj"), ("2", "conj")] (by decide)
      (Or.inl (by decide)) (by decide) (by decide) hch (by decide)
  · exact (claim_C6_deps_order_amended.2.1 _ 5 [("1", "conj"), ("2", "conj")]
      ⟨0, by decide⟩ ⟨1, by decide⟩ (by decide) (Or.inl (by decide)) (by decide)
      hch (by decide) (by decide) (by decide) (by decide)).2
  · exact (claim_C6_deps_order_amended.2.2 _ 5 [("1", "conj")] [] ("2", "conj") (by decide)
      (Or.inl (by decide)) (by decide) hch (by decide) (by decide)).2

/-- The C6 counterexample row: its DEPS list swaps two entries whose exact
numeric heads differ (2^53 + 1 followed by 2^53) but which `float()` rounds
to the same double. -/
def cexRowC6 : UDLine :=
  ["1", "a", "a", "N", "_", "_", "2", "dep",
   "9007199254740993:conj|9007199254740992:conj", "_"]

/-- The parsed DEPS list of `cexRowC6`. -/
def cexDepsC6 : List (String × String) :=
  [("9007199254740993", "conj"), ("9007199254740992", "conj")]

/-- Counterexample to C6 as stated: the DEPS list of `cexRowC6` is the swap
of the two entries of a list sorted strictly by exact numeric head with no
duplicate pair, and the two heads differ as rationals - yet they round to
the same double, so the program sees an already sorted head list and its
adjacent scan compares the distinct head strings: the row yields ZERO
ordering diagnostics where the claim demands exactly one `unsorted-deps`. -/
theorem claim_C6_counterexample :
    pyFloatQ "9007199254740993" ≠ pyFloatQ "9007199254740992" ∧
    headQ ("9007199254740992", "conj") < headQ ("9007199254740993", "conj") ∧
    pyFloat "9007199254740993" = pyFloat "9007199254740992" ∧
    deps_list cexRowC6 = DepsRes.ok cexDepsC6 ∧
    (depsRowDiags (validate_deps_row cexRowC6 5)).countP isDepsOrderDiag = 0 := by
  refine ⟨by decide, by decide, by decide, by decide, ?_⟩
  have hch : List.Chain' depsSortedStep cexDepsC6 :=
    List.chain'_pair.mpr (Or.inr ⟨by decide, lt_irrefl _⟩)
  have hnd : cexDepsC6.Nodup := by decide
  rw [validate_deps_row_ok cexRowC6 5 cexDepsC6 (by decide) (Or.inl (by decide))
    (by decide) (by decide), List.countP_append]
  have hms : ((cexDepsC6.map headD)).mergeSort = cexDepsC6.map headD :=
    List.mergeSort_eq_self (heads_sorted_of_chain hch)
  rw [if_neg (by rw [hms]; exact fun h => h rfl)]
  rw [scan_deps_nil_of_chain' cexRowC6 5 cexDepsC6 (scanOk_chain_of_sorted hch hnd)]
  rw [selfloop_part_count cexRowC6 5 (cexDepsC6.map headD) isDepsOrderDiag
    (by simp [isDepsOrderDiag, deps_self_loop_diag]) (pyFloat (colAt cexRowC6 ID))]
  rfl

/-- Model of `sentid_re.match(line)` for `^# sent_id\s*=\s*(\S+)$`, returning
the captured group. -/
def sentid_match (line : String) : Option String :=
  let l := line.toList
  if l.take 9 = "# sent_id".toList then
    let rest1 := (l.drop 9).dropWhile Char.isWhitespace
    match rest1 with
    | '=' :: rest2 =>
      let rest3 := rest2.dropWhile Char.isWhitespace
      if rest3 ≠ [] ∧ rest3.all (fun c => !c.isWhitespace) then some (String.mk rest3)
      else none
    | _ => none
  else none

/-- Python `s.startswith(p)`. -/
def pyStartsWith (s p : String) : Bool :=
  s.toList.take p.length = p.toList

/-- The `invalid-sent-id` diagnostic. -/
def invalid_sentid_diag (c : String) : Diag :=
  { msg := "Spurious sent_id line: " ++ pyRepr c ++ " Should look like " ++
      pyRepr "# sent_id = xxxxx" ++
      " where xxxxx is not whitespace. Forward slash reserved for special purposes.",
    testclass := "Metadata", testlevel := 2, testid := "invalid-sent-id" }

/-- The `non-unique-sent-id` diagnostic. -/
def non_unique_sentid_diag (sid : String) : Diag :=
  { msg := "Non-unique sent_id attribute " ++ pyRepr sid ++ ".",
    testclass := "Metadata", testlevel := 2, testid := "non-unique-sent-id" }

/-- The `slash-in-sent-id` diagnostic. -/
def slash_sentid_diag (sid : String) : Diag :=
  { msg := "The forward slash is reserved for special use in parallel treebanks: " ++
      pyRepr sid,
    testclass := "Metadata", testlevel := 2, testid := "slash-in-sent-id" }

/-- The `missing-sent-id` diagnostic. -/
def missing_sentid_diag : Diag :=
  { msg := "Missing the sent_id attribute.",
    testclass := "Metadata", testlevel := 2, testid := "missing-sent-id" }

/-- The `multiple-sent-id` diagnostic. -/
def multiple_sentid_diag : Diag :=
  { msg := "Multiple sent_id attributes.",
    testclass := "Metadata", testlevel := 2, testid := "multiple-sent-id" }

/-- `validate_sent_id` from the source: returns the emitted diagnostics and
the updated run-wide set of known sentence ids. -/
def validate_sent_id (comments : List String) (known_ids : Finset String)
    (lcode : String) : List Diag × Finset String :=
  let invalids := comments.flatMap (fun c =>
    if (sentid_match c).isSome then []
    else if pyStartsWith c "# sent_id" || pyStartsWith c "#sent_id" then
      [invalid_sentid_diag c]
    else [])
  match comments.filterMap sentid_match with
  | [] => (invalids ++ [missing_sentid_diag], known_ids)
  | [sid] =>
    let d1 := if sid ∈ known_ids then [non_unique_sentid_diag sid] else []
    let d2 :=
      if sid.toList.count '/' > 1 ∨
          (sid.toList.count '/' = 1 ∧ lcode ≠ "ud" ∧ lcode ≠ "shopen") then
        [slash_sentid_diag sid]
      else []
    (invalids ++ d1 ++ d2, insert sid known_ids)
  | _ :: _ :: _ => (invalids ++ [multiple_sentid_diag], known_ids)

/-- Every diagnostic from the invalid-comment loop of `validate_sent_id`
carries the `invalid-sent-id` rule id. -/
theorem sentid_invalids_testid (comments : List String) :
    ∀ d ∈ comments.flatMap (fun c =>
      if (sentid_match c).isSome then []
      else if pyStartsWith c "# sent_id" || pyStartsWith c "#sent_id" then
        [invalid_sentid_diag c]
      else []), d.testid = "invalid-sent-id" := by
  intro d hd
  rcases List.mem_flatMap.mp hd with ⟨c, _, hdc⟩
  split at hdc
  · simp at hdc
  · split at hdc
    · simp at hdc
      rw [hdc]
      rfl
    · simp at hdc

/-- C10: a sentence's sent_id is recorded only when it has exactly one
well-formed sent_id comment; ids of sentences with zero or several such
comments are never recorded; the non-unique diagnostic fires exactly when the
sole sent_id is already known; and an id that failed to be recorded does not
flag a later sentence that reuses it. -/
theorem claim_C10_sent_id_recording :
    (∀ (comments : List String) (known : Finset String) (lcode sid : String),
      comments.filterMap sentid_match = [sid] →
      (validate_sent_id comments known lcode).2 = insert sid known) ∧
    (∀ (comments : List String) (known : Finset String) (lcode : String),
      (comments.filterMap sentid_match).length ≠ 1 →
      (validate_sent_id comments known lcode).2 = known) ∧
    (∀ (comments : List String) (known : Finset String) (lcode sid : String),
      comments.filterMap sentid_match = [sid] →
      (non_unique_sentid_diag sid ∈ (validate_sent_id comments known lcode).1 ↔
        sid ∈ known)) ∧
    (∀ (comments : List String) (known : Finset String) (lcode : String),
      (comments.filterMap sentid_match).length ≠ 1 →
      ∀ d ∈ (validate_sent_id comments known lcode).1, d.testid ≠ "non-unique-sent-id") ∧
    (∀ (commentsA commentsB : List String) (known : Finset String) (lcode sid : String),
      (commentsA.filterMap sentid_match).length ≠ 1 →
      commentsB.filterMap sentid_match = [sid] → sid ∉ known →
      non_unique_sentid_diag sid ∉
        (validate_sent_id commentsB (validate_sent_id commentsA known lcode).2 lcode).1) := by
  have hsnd1 : ∀ (comments : List String) (known : Finset String) (lcode sid : String),
      comments.filterMap sentid_match = [sid] →
      (validate_sent_id comments known lcode).2 = insert sid known := by
    intro comments known lcode sid h
    unfold validate_sent_id
    rw [h]
  have hsnd2 : ∀ (comments : List String) (known : Finset String) (lcode : String),
      (comments.filterMap sentid_match).length ≠ 1 →
      (validate_sent_id comments known lcode).2 = known := by
    intro comments known lcode h
    unfold validate_sent_id
    cases hm : comments.filterMap sentid_match with
    | nil => rfl
    | cons a t =>
      cases t with
      | nil => exact absurd (by rw [hm]; rfl) h
      | cons b t' => rfl
  have hmem : ∀ (comments : List String) (known : Finset String) (lcode sid : String),
      comments.filterMap sentid_match = [sid] →
      (non_unique_sentid_diag sid ∈ (validate_sent_id comments known lcode).1 ↔
        sid ∈ known) := by
    intro comments known lcode sid h
    unfold validate_sent_id
    rw [h]
    simp only [List.mem_append]
    constructor
    · rintro ((hin | hin) | hin)
      · have := sentid_invalids_testid comments _ hin
        simp [non_unique_sentid_diag] at this
      · by_cases hk : sid ∈ known
        · exact hk
        · rw [if_neg hk] at hin
          simp at hin
      · split at hin
        · simp [non_unique_sentid_diag, slash_sentid_diag] at hin
        · simp at hin
    · intro hk
      exact Or.inl (Or.inr (by rw [if_pos hk]; exact List.mem_singleton.mpr rfl))
  have hno : ∀ (comments : List String) (known : Finset String) (lcode : String),
      (comments.filterMap sentid_match).length ≠ 1 →
      ∀ d ∈ (validate_sent_id comments known lcode).1,
        d.testid ≠ "non-unique-sent-id" := by
    intro comments known lcode h d hd
    unfold validate_sent_id at hd
    cases hm : comments.filterMap sentid_match with
    | nil =>
      rw [hm] at hd
      rcases List.mem_append.mp hd with hin | hin
      · rw [sentid_invalids_testid comments d hin]
        decide
      · simp at hin
        rw [hin]
        decide
    | cons a t =>
      cases t with
      | nil => exact absurd (by rw [hm]; rfl) h
      | cons b t' =>
        rw [hm] at hd
        rcases List.mem_append.mp hd with hin | hin
        · rw [sentid_invalids_testid comments d hin]
          decide
        · simp at hin
          rw [hin]
          decide
  refine ⟨hsnd1, hsnd2, hmem, hno, ?_⟩
  intro commentsA commentsB known lcode sid hA hB hsid
  rw [hsnd2 commentsA known lcode hA]
  intro hmem'
  exact hsid ((hmem commentsB known lcode sid hB).mp hmem')

/-- Witness for C10 at concrete inputs: one well-formed sent_id records the
id; a doubled sent_id records nothing; and the doubled sentence does not make
a later reuse non-unique. -/
theorem claim_C10_sent_id_recording_witness :
    (validate_sent_id ["# sent_id = s1"] (∅ : Finset String) "ud").2 =
      insert "s1" (∅ : Finset String) ∧
    (validate_sent_id ["# sent_id = s1", "# sent_id = s1"] (∅ : Finset String) "ud").2 =
      (∅ : Finset String) ∧
    non_unique_sentid_diag "s1" ∉
      (validate_sent_id ["# sent_id = s1"]
        (validate_sent_id ["# sent_id = s1", "# sent_id = s1"] (∅ : Finset String) "ud").2
        "ud").1 :=
  ⟨claim_C10_sent_id_recording.1 _ _ "ud" "s1" (by decide),
   claim_C10_sent_id_recording.2.1 _ _ "ud" (by decide),
   claim_C10_sent_id_recording.2.2.2.2 _ _ _ "ud" "s1" (by decide) (by decide) (by decide)⟩

/-- The driver options `warn` consults. -/
structure PyArgs where
  quiet : Bool
  max_err : Int
  input : List String
deriving DecidableEq, Repr

/-- The mutable globals `warn` reads for its message prefix. -/
structure WarnCtx where
  curr_fname : String
  curr_line : Nat
  sentence_line : Nat
  sentence_id : Option String
  tree_counter : Nat
deriving DecidableEq, Repr

/-- `os.path.basename`. -/
def pyBasename (s : String) : String :=
  String.mk ((splitChar '/' s.toList).getLastD [])

/-- The line `warn` prints for a diagnostic when it is not suppressed. -/
def formatWarn (args : PyArgs) (ctx : WarnCtx) (d : Diag) : String :=
  let fn :=
    if args.input.length > 1 then
      if ctx.curr_fname = "-" then "(in STDIN) "
      else "(in " ++ pyBasename ctx.curr_fname ++ ") "
    else ""
  let sent :=
    match ctx.sentence_id with
    | some s => if s ≠ "" then " Sent " ++ s else ""
    | none => ""
  let node := if d.nodeid ≠ 0 then " Node " ++ toString d.nodeid else ""
  let tail := "]: [L" ++ toString d.testlevel ++ " " ++ d.testclass ++ " " ++
    d.testid ++ "] " ++ d.msg
  if d.nodelineno ≠ 0 then
    "[" ++ fn ++ "Line " ++ toString d.nodelineno ++ sent ++ node ++ tail
  else if d.lineno then
    "[" ++ fn ++ "Line " ++ toString ctx.curr_line ++ sent ++ node ++ tail
  else
    "[" ++ fn ++ "Tree number " ++ toString ctx.tree_counter ++ " on line " ++
      toString ctx.sentence_line ++ sent ++ node ++ tail

/-- One call to `warn`: the per-category counter (modelled as the list of
recorded category events) is incremented first, unconditionally; quiet mode
and the per-category cap only decide what is printed. -/
def warnStep (args : PyArgs) (ctx : WarnCtx) (events : List String) (d : Diag) :
    List String × List String :=
  let events' := events ++ [d.testclass]
  let c : Int := events'.count d.testclass
  let printed :=
    if !args.quiet then
      if args.max_err > 0 ∧ c = args.max_err then
        ["...suppressing further errors regarding " ++ d.testclass]
      else if args.max_err > 0 ∧ c > args.max_err then []
      else [formatWarn args ctx d]
    else []
  (events', printed)

/-- A whole run of `warn` calls, threading the counter and collecting output. -/
def runWarns (args : PyArgs) : List (WarnCtx × Diag) → List String → List String × List String
  | [], events => (events, [])
  | (ctx, d) :: rest, events =>
    let st := warnStep args ctx events d
    let r := runWarns args rest st.1
    (r.1, st.2 ++ r.2)

/-- The exit-code decision of the driver epilogue: `sys.exit(0)` when the
error counter is empty, `sys.exit(1)` otherwise. -/
def exit_code (events : List String) : Nat :=
  if events = [] then 0 else 1

/-- The recorded events of a run are exactly the categories of the calls. -/
theorem runWarns_events (args : PyArgs) :
    ∀ (calls : List (WarnCtx × Diag)) (events : List String),
      (runWarns args calls events).1 = events ++ calls.map (fun c => c.2.testclass)
  | [], events => by simp [runWarns]
  | (ctx, d) :: rest, events => by
    show (runWarns args rest (events ++ [d.testclass])).1 = _
    rw [runWarns_events args rest (events ++ [d.testclass])]
    simp

/-- C7: the run exits with code 0 exactly when no diagnostic was recorded
during the whole run, and with code 1 otherwise. -/
theorem claim_C7_exit_code (args : PyArgs) (calls : List (WarnCtx × Diag)) :
    (exit_code (runWarns args calls []).1 = 0 ↔ calls = []) ∧
    (calls ≠ [] → exit_code (runWarns args calls []).1 = 1) := by
  rw [runWarns_events args calls []]
  constructor
  · simp [exit_code]
  · intro h
    simp [exit_code, h]

/-- Witness for C7: a run with one diagnostic exits 1; the empty run exits 0. -/
theorem claim_C7_exit_code_witness :
    exit_code (runWarns ⟨true, 20, ["-"]⟩
      [(⟨"-", 3, 1, none, 1⟩, invalid_sentid_diag "x")] []).1 = 1 ∧
    exit_code (runWarns ⟨true, 20, ["-"]⟩ [] []).1 = 0 :=
  ⟨(claim_C7_exit_code ⟨true, 20, ["-"]⟩
      [(⟨"-", 3, 1, none, 1⟩, invalid_sentid_diag "x")]).2 (by simp),
   (claim_C7_exit_code ⟨true, 20, ["-"]⟩ []).1.mpr rfl⟩

/-- C9: two runs over the same inputs that differ only in the quiet flag
and/or the per-category cap record identical per-category counts and produce
the same exit code; the counter is incremented before any suppression
decision, so suppression affects printing only. -/
theorem claim_C9_quiet_maxerr_invariance (a1 a2 : PyArgs)
    (calls : List (WarnCtx × Diag)) (hinput : a1.input = a2.input) :
    (runWarns a1 calls []).1 = (runWarns a2 calls []).1 ∧
    (∀ et : String, ((runWarns a1 calls []).1).count et =
      ((runWarns a2 calls []).1).count et) ∧
    exit_code (runWarns a1 calls []).1 = exit_code (runWarns a2 calls []).1 := by
  have h : (runWarns a1 calls []).1 = (runWarns a2 calls []).1 := by
    rw [runWarns_events, runWarns_events]
  exact ⟨h, fun et => by rw [h], by rw [h]⟩

/-- Witness for C9: quiet with a tiny cap versus verbose with no cap, on a
one-diagnostic run. -/
theorem claim_C9_quiet_maxerr_invariance_witness :
    exit_code (runWarns ⟨true, 1, ["-"]⟩
        [(⟨"-", 3, 1, none, 1⟩, missing_sentid_diag)] []).1 =
      exit_code (runWarns ⟨false, 0, ["-"]⟩
        [(⟨"-", 3, 1, none, 1⟩, missing_sentid_diag)] []).1 :=
  (claim_C9_quiet_maxerr_invariance ⟨true, 1, ["-"]⟩ ⟨false, 0, ["-"]⟩
    [(⟨"-", 3, 1, none, 1⟩, missing_sentid_diag)] rfl).2.2

/-- Python `line.rstrip("\n")`. -/
def pyRstripNl (s : String) : String :=
  String.mk ((s.toList.reverse.dropWhile (fun c => c = '\n')).reverse)

/-- `is_whitespace` from the source: nonempty and all whitespace. -/
def is_whitespace (line : String) : Bool :=
  !line.toList.isEmpty && line.toList.all Char.isWhitespace

/-- The state of the `trees` loop: pending comments and token rows of the
sentence under construction, plus the sentence-label globals. -/
structure TreesState where
  comments : List String
  rows : List UDLine
  sentence_id : Option String
  sentence_line : Nat

/-- `pseudo-empty-line` diagnostic. -/
def pseudo_empty_line_diag : Diag :=
  { msg := "Spurious line that appears empty but is not; there are whitespace characters.",
    testclass := "Format", testlevel := 1, testid := "pseudo-empty-line" }

/-- `extra-empty-line` diagnostic. -/
def extra_empty_line_diag : Diag :=
  { msg := "Spurious empty line. Only one empty line is expected after every sentence.",
    testclass := "Format", testlevel := 1, testid := "extra-empty-line" }

/-- `misplaced-comment` diagnostic. -/
def misplaced_comment_diag : Diag :=
  { msg := "Spurious comment line. Comments are only allowed before a sentence.",
    testclass := "Format", testlevel := 1, testid := "misplaced-comment" }

/-- `number-of-columns` diagnostic. -/
def number_of_columns_diag (found : Nat) : Diag :=
  { msg := "The line has " ++ toString found ++ " columns but " ++ toString COLCOUNT ++
      " are expected.",
    testclass := "Format", testlevel := 1, testid := "number-of-columns" }

/-- `invalid-line` diagnostic. -/
def invalid_line_diag (line : String) : Diag :=
  { msg := "Spurious line: " ++ pyRepr line ++
      " All non-empty lines should start with a digit or the # character.",
    testclass := "Format", testlevel := 1, testid := "invalid-line" }

/-- `missing-empty-line` diagnostic. -/
def missing_empty_line_diag : Diag :=
  { msg := "Missing empty line after the last sentence.",
    testclass := "Format", testlevel := 1, testid := "missing-empty-line" }

/-- One iteration of the `trees` loop on one raw input line.  `uniC` and
`colC` stand for the out-of-scope per-row validators the loop invokes
(`validate_unicode_normalization`, and `validate_cols_level1` with
`validate_cols`); the segmentation result does not depend on them.  Returns
the new state, the blocks yielded by this line, and the diagnostics. -/
def trees_step (uniC : String → List Diag) (colC : UDLine → List Diag)
    (st : TreesState) (curr_line : Nat) (raw : String) :
    TreesState × List (List String × List UDLine) × List Diag :=
  let line := pyRstripNl raw
  if is_whitespace line then
    if st.rows ≠ [] then
      (⟨[], [], st.sentence_id, st.sentence_line⟩, [(st.comments, st.rows)],
        [pseudo_empty_line_diag])
    else (st, [], [pseudo_empty_line_diag])
  else if line = "" then
    if st.rows ≠ [] then
      (⟨[], [], st.sentence_id, st.sentence_line⟩, [(st.comments, st.rows)], [])
    else (st, [], [extra_empty_line_diag])
  else if line.toList.headD ' ' = '#' then
    let sid' := match sentid_match line with
      | some v => some v
      | none => st.sentence_id
    if st.rows = [] then
      (⟨st.comments ++ [line], st.rows, sid', st.sentence_line⟩, [], [])
    else (⟨st.comments, st.rows, sid', st.sentence_line⟩, [], [misplaced_comment_diag])
  else if (line.toList.headD ' ').isDigit then
    let sline' := if st.rows = [] then curr_line else st.sentence_line
    let cols := pySplit '\t' line
    let arity := if cols.length ≠ COLCOUNT then [number_of_columns_diag cols.length] else []
    (⟨st.comments, st.rows ++ [cols], st.sentence_id, sline'⟩, [],
      uniC line ++ arity ++ colC cols)
  else (st, [], [invalid_line_diag line])

/-- The `trees` loop from a given state, including the end-of-stream flush of
a dangling block. -/
def trees_go (uniC : String → List Diag) (colC : UDLine → List Diag) :
    TreesState → Nat → List String → List (List String × List UDLine) × List Diag
  | st, _, [] =>
    if st.comments ≠ [] ∨ st.rows ≠ [] then
      ([(st.comments, st.rows)], [missing_empty_line_diag])
    else ([], [])
  | st, n, raw :: rest =>
    let s := trees_step uniC colC st n raw
    let r := trees_go uniC colC s.1 (n + 1) rest
    (s.2.1 ++ r.1, s.2.2 ++ r.2)

/-- `trees` from the source: segment a stream of raw lines into sentence
blocks, emitting stream-level diagnostics. -/
def trees (uniC : String → List Diag) (colC : UDLine → List Diag)
    (inp : List String) : List (List String × List UDLine) × List Diag :=
  trees_go uniC colC ⟨[], [], none, 0⟩ 1 inp

/-- Case analysis of one `trees` iteration: it either flushes the pending
block, or leaves comments and rows alone, or appends a comment (only before
any row), or appends a token row. -/
theorem trees_step_char (uniC : String → List Diag) (colC : UDLine → List Diag)
    (st : TreesState) (n : Nat) (raw : String) :
    ((trees_step uniC colC st n raw).2.1 = [(st.comments, st.rows)] ∧ st.rows ≠ [] ∧
      (trees_step uniC colC st n raw).1.comments = [] ∧
      (trees_step uniC colC st n raw).1.rows = []) ∨
    ((trees_step uniC colC st n raw).2.1 = [] ∧
      (trees_step uniC colC st n raw).1.comments = st.comments ∧
      (trees_step uniC colC st n raw).1.rows = st.rows) ∨
    ((trees_step uniC colC st n raw).2.1 = [] ∧
      (trees_step uniC colC st n raw).1.comments = st.comments ++ [pyRstripNl raw] ∧
      (trees_step uniC colC st n raw).1.rows = st.rows ∧ st.rows = []) ∨
    ((trees_step uniC colC st n raw).2.1 = [] ∧
      (trees_step uniC colC st n raw).1.comments = st.comments ∧
      (trees_step uniC colC st n raw).1.rows =
        st.rows ++ [pySplit '\t' (pyRstripNl raw)]) := by
  have h0 : is_whitespace "" = false := by decide
  unfold trees_step
  by_cases hw : is_whitespace (pyRstripNl raw) = true
  · by_cases hr : st.rows = []
    · right; left
      simp [hw, hr]
    · left
      simp [hw, hr]
  · by_cases hb : pyRstripNl raw = ""
    · by_cases hr : st.rows = []
      · right; left
        simp [hw, hb, hr, h0]
      · left
        simp [hw, hb, hr, h0]
    · by_cases hc : (pyRstripNl raw).data.head?.getD ' ' = '#'
      · by_cases hr : st.rows = []
        · right; right; left
          simp [hw, hb, hc, hr]
        · right; left
          simp [hw, hb, hc, hr]
      · by_cases hd : ((pyRstripNl raw).data.head?.getD ' ').isDigit = true
        · right; right; right
          simp [hw, hb, hc, hd]
        · right; left
          simp [hw, hb, hc, hd]

/-- From a state with pending token rows, the next yielded block carries the
state's comment list unchanged. -/
theorem trees_go_head_of_rows (uniC : String → List Diag) (colC : UDLine → List Diag) :
    ∀ (ls : List String) (st : TreesState) (n : Nat), st.rows ≠ [] →
      ∃ rows, ((trees_go uniC colC st n ls).1).head? = some (st.comments, rows) := by
  intro ls
  induction ls with
  | nil =>
    intro st n hr
    refine ⟨st.rows, ?_⟩
    unfold trees_go
    rw [if_pos (Or.inr hr)]
    rfl
  | cons raw rest ih =>
    intro st n hr
    have hgo : (trees_go uniC colC st n (raw :: rest)).1 =
        (trees_step uniC colC st n raw).2.1 ++
          (trees_go uniC colC (trees_step uniC colC st n raw).1 (n + 1) rest).1 := rfl
    rcases trees_step_char uniC colC st n raw with
      ⟨hy, _, _, _⟩ | ⟨hy, hcm, hrw⟩ | ⟨_, _, _, hre⟩ | ⟨hy, hcm, hrw⟩
    · exact ⟨st.rows, by rw [hgo, hy]; rfl⟩
    · rcases ih (trees_step uniC colC st n raw).1 (n + 1) (by rw [hrw]; exact hr) with
        ⟨rows, hrow⟩
      exact ⟨rows, by rw [hgo, hy, List.nil_append, hrow, hcm]⟩
    · exact absurd hre hr
    · rcases ih (trees_step uniC colC st n raw).1 (n + 1)
        (by rw [hrw]; simp) with ⟨rows, hrow⟩
      exact ⟨rows, by rw [hgo, hy, List.nil_append, hrow, hcm]⟩

/-- From a state with no pending rows and a non-empty pending comment list,
the run always yields at least one more block, and the first such block keeps
those comments as a prefix of its own. -/
theorem trees_go_head_of_comments (uniC : String → List Diag) (colC : UDLine → List Diag) :
    ∀ (ls : List String) (st : TreesState) (n : Nat), st.rows = [] →
      st.comments ≠ [] →
      ∃ ext rows, ((trees_go uniC colC st n ls).1).head? =
        some (st.comments ++ ext, rows) := by
  intro ls
  induction ls with
  | nil =>
    intro st n _ hc
    refine ⟨[], st.rows, ?_⟩
    unfold trees_go
    rw [if_pos (Or.inl hc)]
    simp
  | cons raw rest ih =>
    intro st n hr hc
    have hgo : (trees_go uniC colC st n (raw :: rest)).1 =
        (trees_step uniC colC st n raw).2.1 ++
          (trees_go uniC colC (trees_step uniC colC st n raw).1 (n + 1) rest).1 := rfl
    rcases trees_step_char uniC colC st n raw with
      ⟨_, hne, _, _⟩ | ⟨hy, hcm, hrw⟩ | ⟨hy, hcm, hrw, _⟩ | ⟨hy, hcm, hrw⟩
    · exact absurd hr hne
    · rcases ih (trees_step uniC colC st n raw).1 (n + 1) (by rw [hrw]; exact hr)
        (by rw [hcm]; exact hc) with ⟨ext, rows, hrow⟩
      rw [hcm] at hrow
      exact ⟨ext, rows, by rw [hgo, hy, List.nil_append, hrow]⟩
    · rcases ih (trees_step uniC colC st n raw).1 (n + 1) (by rw [hrw]; exact hr)
        (by rw [hcm]; simp) with ⟨ext, rows, hrow⟩
      rw [hcm] at hrow
      refine ⟨[pyRstripNl raw] ++ ext, rows, ?_⟩
      rw [hgo, hy, List.nil_append, hrow]
      simp
    · rcases trees_go_head_of_rows uniC colC rest (trees_step uniC colC st n raw).1 (n + 1)
        (by rw [hrw, hr]; simp) with ⟨rows, hrow⟩
      rw [hcm] at hrow
      exact ⟨[], rows, by rw [hgo, hy, List.nil_append, hrow]; simp⟩

/-- C8: a blank line read while comments are pending but no token rows are is
flagged (`extra-empty-line`) but the accumulated comments are not discarded:
whatever follows, the next block yielded — or the end-of-stream flush — still
carries those comments as a prefix of its comment list. -/
theorem claim_C8_comments_survive_blank (uniC : String → List Diag)
    (colC : UDLine → List Diag) :
    (∀ (st : TreesState) (n : Nat), st.rows = [] →
      trees_step uniC colC st n "" = (st, [], [extra_empty_line_diag])) ∧
    (∀ (cs : List String) (sid : Option String) (sline : Nat) (ls : List String) (n : Nat),
      cs ≠ [] →
      ∃ ext rows,
        ((trees_go uniC colC ⟨cs, [], sid, sline⟩ n ls).1).head? =
          some (cs ++ ext, rows)) := by
  constructor
  · intro st n hr
    unfold trees_step
    have h0 : is_whitespace (pyRstripNl "") = false := by decide
    have h1 : pyRstripNl "" = "" := by decide
    rw [h1] at h0 ⊢
    simp [h0, hr]
  · intro cs sid sline ls n hc
    exact trees_go_head_of_comments uniC colC ls ⟨cs, [], sid, sline⟩ n rfl hc

/-- Witness for C8: after a comment and a stray blank line, the comment goes
to the next yielded sentence. -/
theorem claim_C8_comments_survive_blank_witness :
    trees_step (fun _ => []) (fun _ => []) ⟨["# text = x"], [], none, 0⟩ 2 "" =
      (⟨["# text = x"], [], none, 0⟩, [], [extra_empty_line_diag]) ∧
    ∃ ext rows,
      ((trees_go (fun _ => []) (fun _ => []) ⟨["# text = x"], [], none, 0⟩ 3
        ["# sent_id = s", "1\ta\t_\t_\t_\t_\t0\troot\t_\t_", ""]).1).head? =
        some (["# text = x"] ++ ext, rows) :=
  ⟨(claim_C8_comments_survive_blank (fun _ => []) (fun _ => [])).1 _ 2 rfl,
   (claim_C8_comments_survive_blank (fun _ => []) (fun _ => [])).2 ["# text = x"] none 0 _ 3
     (by simp)⟩

/-- Insertion sort respects permutation of its input. -/
theorem insSort_respects : ∀ (a b : List Int), a ≈ b →
    List.insertionSort (fun x y : Int => x ≤ y) a =
      List.insertionSort (fun x y : Int => x ≤ y) b :=
  fun a b h =>
    List.eq_of_perm_of_sorted
      ((List.perm_insertionSort _ a).trans (h.trans (List.perm_insertionSort _ b).symm))
      (List.sorted_insertionSort _ a) (List.sorted_insertionSort _ b)

/-- Sorting a set of integers into an ascending list, via the structurally
recursive insertion sort so that concrete instances evaluate. -/
def finsetSortL (s : Finset Int) : List Int :=
  Quotient.liftOn s.val (fun l => List.insertionSort (fun a b : Int => a ≤ b) l)
    insSort_respects

/-- `finsetSortL` agrees with `Finset.sort`. -/
theorem finsetSortL_eq_sort (s : Finset Int) : finsetSortL s = s.sort (· ≤ ·) := by
  show Quotient.liftOn s.val _ insSort_respects = Multiset.sort (· ≤ ·) s.val
  induction s.val using Quotient.inductionOn with
  | h l =>
    show List.insertionSort (fun a b : Int => a ≤ b) l =
      Multiset.sort (· ≤ ·) (l : Multiset Int)
    apply List.eq_of_perm_of_sorted ?_ (List.sorted_insertionSort _ l)
      (Multiset.sort_sorted _ _)
    refine (List.perm_insertionSort _ l).trans ?_
    have h := Multiset.sort_eq (α := Int) (· ≤ ·) (l : Multiset Int)
    exact (Multiset.coe_eq_coe.mp h).symm

/-- The tree structure `build_tree` returns. -/
structure PyTree where
  nodes : List UDLine
  children : List (List Int)
  linenos : List Nat
deriving DecidableEq

/-- The `head-self-loop` diagnostic. -/
def head_self_loop_diag (ids : String) (node_line : Nat) : Diag :=
  { msg := "HEAD == ID for " ++ ids,
    testclass := "Syntax", testlevel := 2, testid := "head-self-loop",
    nodelineno := node_line }

/-- The `multiple-roots` diagnostic.  (The source interpolates the Python set
`children[0]`; its element order is unspecified, modelled sorted.) -/
def multiple_roots_diag (roots : Finset Int) : Diag :=
  { msg := "Multiple root words: " ++ toString (finsetSortL roots),
    testclass := "Syntax", testlevel := 2, testid := "multiple-roots",
    lineno := false }

/-- The `non-tree` diagnostic, listing the unreachable word indices. -/
def non_tree_diag (ws : List Int) : Diag :=
  { msg := "Non-tree structure. Words " ++ String.intercalate "," (ws.map toString) ++
      " are not reachable from the root 0.",
    testclass := "Syntax", testlevel := 2, testid := "non-tree",
    lineno := false }

/-- Outcome of the `build_tree` row loop. -/
inductive BTAcc where
  | crash : BTAcc
  | bail : BTAcc
  | selfLoop : String → Nat → BTAcc
  | done : List UDLine → List (Finset Int) → List Nat → BTAcc

/-- The row loop of `build_tree`: parse every word row, reject self-loops and
accumulate the children sets (`children[head].add(id)`, a Python subscript
that raises `IndexError` — `crash` — when the integer HEAD is outside the
list). -/
def build_tree_rows : List UDLine → Nat → List UDLine → List (Finset Int) → List Nat → BTAcc
  | [], _, nodes, children, linenos => BTAcc.done nodes children linenos
  | cols :: rest, node_line, nodes, children, linenos =>
    if ¬ is_word cols then build_tree_rows rest (node_line + 1) nodes children linenos
    else if MISC ≥ cols.length then BTAcc.bail
    else
      match pyInt (colAt cols ID) with
      | none => BTAcc.bail
      | some id_ =>
        match pyInt (colAt cols HEAD) with
        | none => BTAcc.bail
        | some head =>
          if head = id_ then BTAcc.selfLoop (colAt cols ID) (node_line + 1)
          else
            match pyListModify children head (fun s => insert id_ s) with
            | none => BTAcc.crash
            | some children' =>
              build_tree_rows rest (node_line + 1) (nodes ++ [cols]) children'
                (linenos ++ [node_line + 1])

/-- The recursive descent of `get_projection`, with fuel standing for the
Python call stack: exhausting it models `RecursionError`, and `none` also
covers an `IndexError` from the `children` subscript.  Wherever `build_tree`
terminates in Python, the fuel passed is proved sufficient. -/
def get_projection_fuel : Nat → PyTree → Int → Option (Finset Int)
  | 0, _, _ => none
  | fuel + 1, tree, node_id =>
    match pyListGet tree.children node_id with
    | none => none
    | some cs =>
      cs.foldl (fun acc child_id =>
        match acc with
        | none => none
        | some projection =>
          if child_id ∈ projection then some projection
          else
            match get_projection_fuel fuel tree child_id with
            | none => none
            | some sub => some (projection ∪ sub)) (some {node_id})

/-- Outcome of `build_tree`: a raised exception, `None` with the emitted
diagnostics, or the built tree. -/
inductive BTOut where
  | crash : BTOut
  | noTree : List Diag → BTOut
  | built : PyTree → BTOut
deriving DecidableEq

/-- `build_tree` from the source. -/
def build_tree (sentence : List UDLine) (single_root : Bool) (sentence_line : Nat) : BTOut :=
  match build_tree_rows sentence (sentence_line - 1)
      [["0", "_", "_", "_", "_", "_", "_", "_", "_", "_"]]
      (List.replicate (sentence.length + 1) (∅ : Finset Int)) [sentence_line] with
  | BTAcc.crash => BTOut.crash
  | BTAcc.bail => BTOut.noTree []
  | BTAcc.selfLoop ids nl => BTOut.noTree [head_self_loop_diag ids nl]
  | BTAcc.done nodes children linenos =>
    if (children.headD ∅).card > 1 ∧ single_root then
      BTOut.noTree [multiple_roots_diag (children.headD ∅)]
    else
      let tree : PyTree := ⟨nodes, children.map (fun c => finsetSortL c), linenos⟩
      match get_projection_fuel (sentence.length + 2) tree 0 with
      | none => BTOut.crash
      | some projection =>
        let unreachable := Finset.Ico (1 : Int) ((nodes.length : Int) - 1) \ projection
        if unreachable ≠ ∅ then BTOut.noTree [non_tree_diag (finsetSortL unreachable)]
        else BTOut.built tree

/-- C1 (refuted; code bug): a word row whose integer HEAD (here `2`) names no
word of the sentence makes `build_tree` evaluate `children[head]` outside the
children list, i.e. raise `IndexError`; the exception escapes the sentence
loop and is only caught by the top-level handler, so processing does not
continue with the next row, sentence or stream.  The theorem exhibits the
failing sentence: a single well-formed word row, `is_word` true, HEAD parsing
to the integer 2 which no row ID parses to, on which `build_tree` crashes
instead of recording a diagnostic and continuing. -/
theorem claim_C1_unknown_head_crashes :
    is_word (["1", "x", "x", "NOUN", "_", "_", "2", "dep", "_", "_"] : List String) = true ∧
    pyInt (colAt (["1", "x", "x", "NOUN", "_", "_", "2", "dep", "_", "_"] : List String)
      HEAD) = some 2 ∧
    (∀ cols ∈ ([["1", "x", "x", "NOUN", "_", "_", "2", "dep", "_", "_"]] :
        List UDLine), pyInt (colAt cols ID) ≠ some 2) ∧
    build_tree [["1", "x", "x", "NOUN", "_", "_", "2", "dep", "_", "_"]] true 1 =
      BTOut.crash := by decide

/-- Reachability of the virtual root 0 by iterating the head assignment. -/
def reaches (hd : Int → Int) (j : Int) : Prop :=
  ∃ m : Nat, hd^[m] j = 0

/-- Head iteration stays in the node range. -/
theorem iterate_bounds (N : Nat) (hd : Int → Int)
    (Hrange : ∀ j : Int, 0 ≤ hd j ∧ hd j ≤ N) (j : Int) (h0 : 0 ≤ j) (h1 : j ≤ N) :
    ∀ k : Nat, 0 ≤ hd^[k] j ∧ hd^[k] j ≤ N := by
  intro k
  induction k with
  | zero => exact ⟨h0, h1⟩
  | succ k _ =>
    rw [Function.iterate_succ_apply']
    exact Hrange _

/-- A minimal chain to the root has pairwise distinct values. -/
theorem chain_min_inj (hd : Int → Int) (j : Int) (m : Nat)
    (hm : hd^[m] j = 0) (hmin : ∀ k < m, hd^[k] j ≠ 0) :
    ∀ a b : Nat, a < b → b ≤ m → hd^[a] j ≠ hd^[b] j := by
  intro a b hab hbm heq
  have hx : hd^[m - b + a] j = 0 := by
    have h1 : hd^[m] j = hd^[m - b] (hd^[b] j) := by
      rw [← Function.iterate_add_apply]
      congr 1
      omega
    rw [← heq] at h1
    rw [← Function.iterate_add_apply] at h1
    rw [← hm, h1]
  exact hmin (m - b + a) (by omega) hx

/-- A minimal chain from a node in range has length at most `N`. -/
theorem chain_min_le (N : Nat) (hd : Int → Int)
    (Hrange : ∀ j : Int, 0 ≤ hd j ∧ hd j ≤ N) (j : Int) (h0 : 0 ≤ j) (h1 : j ≤ N)
    (m : Nat) (hm : hd^[m] j = 0) (hmin : ∀ k < m, hd^[k] j ≠ 0) : m ≤ N := by
  have hsub : (Finset.range (m + 1)).image (fun k => hd^[k] j) ⊆
      Finset.Icc (0 : Int) N := by
    intro x hx
    rcases Finset.mem_image.mp hx with ⟨k, _, hk⟩
    rcases iterate_bounds N hd Hrange j h0 h1 k with ⟨ha, hb⟩
    rw [hk] at ha hb
    exact Finset.mem_Icc.mpr ⟨ha, hb⟩
  have hinj : Set.InjOn (fun k => hd^[k] j) (Finset.range (m + 1)) := by
    intro a ha b hb hab
    rcases lt_trichotomy a b with h | h | h
    · exact absurd hab (chain_min_inj hd j m hm hmin a b h
        (by simpa using Nat.lt_succ_iff.mp (Finset.mem_range.mp hb)))
    · exact h
    · exact absurd hab.symm (chain_min_inj hd j m hm hmin b a h
        (by simpa using Nat.lt_succ_iff.mp (Finset.mem_range.mp ha)))
  have hcard := Finset.card_le_card hsub
  rw [Finset.card_image_of_injOn hinj, Finset.card_range] at hcard
  have : (Finset.Icc (0 : Int) N).card = N + 1 := by
    rw [Int.card_Icc]
    simp
  omega

/-- A chain that has reached the root stays there. -/
theorem iterate_past (hd : Int → Int) (Hzero : hd 0 = 0) (j : Int) (m : Nat)
    (hm : hd^[m] j = 0) : ∀ t : Nat, m ≤ t → hd^[t] j = 0 := by
  intro t hmt
  have : hd^[t - m + m] j = hd^[t - m] (hd^[m] j) := Function.iterate_add_apply hd _ _ j
  rw [hm, Function.iterate_fixed Hzero] at this
  have ht : t - m + m = t := by omega
  rw [ht] at this
  exact this

/-- Two distinct children of the same node have disjoint descents: the first
is never in the projection of the second. -/
theorem sibling_not_desc (N : Nat) (hd : Int → Int)
    (Hrange : ∀ j : Int, 0 ≤ hd j ∧ hd j ≤ N)
    (Hzero : hd 0 = 0) (n c c' : Int) (m : Nat)
    (hm : hd^[m] n = 0) (hmin : ∀ k < m, hd^[k] n ≠ 0)
    (hc1 : 1 ≤ c) (hhc : hd c = n)
    (hc'1 : 1 ≤ c') (hhc' : hd c' = n) (hne : c ≠ c')
    (k : Nat) (hk : hd^[k] c = c') : False := by
  cases k with
  | zero => exact hne (by simpa using hk)
  | succ s =>
    have hs : hd^[s] n = c' := by
      have : hd^[s + 1] c = hd^[s] (hd^[1] c) := Function.iterate_add_apply hd s 1 c
      simp only [Function.iterate_one, hhc] at this
      rw [← hk, this]
    have hper : hd^[s + 1] n = n := by
      rw [Function.iterate_succ_apply', hs, hhc']
    by_cases hle : s + 1 ≤ m
    · exact chain_min_inj hd n m hm hmin 0 (s + 1) (by omega) hle (by
        simpa using hper.symm)
    · have hzero : hd^[s + 1] n = 0 := iterate_past hd Hzero n m hm (s + 1) (by omega)
      have hn0 : n = 0 := by rw [← hper, hzero]
      have : c' = 0 := by
        rw [← hs, hn0, Function.iterate_fixed Hzero]
      omega

/-- Splitting a nontrivial descent at its last step: any node other than `n`
that descends to `n` goes through a child of `n` in `1..N`. -/
theorem desc_split (N : Nat) (hd : Int → Int)
    (Hrange : ∀ j : Int, 0 ≤ hd j ∧ hd j ≤ N) (Hzero : hd 0 = 0) :
    ∀ (k : Nat) (j n : Int), hd^[k] j = n → j ≠ n → 0 ≤ j → j ≤ N →
      ∃ c : Int, 1 ≤ c ∧ c ≤ N ∧ hd c = n ∧ ∃ kk : Nat, hd^[kk] j = c := by
  intro k
  induction k using Nat.strong_induction_on with
  | _ k ih =>
    intro j n hk hne h0 h1
    cases k with
    | zero => exact absurd (by simpa using hk) hne
    | succ s =>
      have hstep : hd (hd^[s] j) = n := by
        rw [Function.iterate_succ_apply'] at hk
        exact hk
      by_cases hc0 : hd^[s] j = 0
      · have hn0 : n = 0 := by rw [← hstep, hc0, Hzero]
        cases s with
        | zero => exact absurd (by rw [hn0]; simpa using hc0) hne
        | succ s' =>
          exact ih (s' + 1) (by omega) j n (by rw [hn0, ← hc0]) hne h0 h1
      · refine ⟨hd^[s] j, ?_, ?_, hstep, s, rfl⟩
        · rcases iterate_bounds N hd Hrange j h0 h1 s with ⟨ha, _⟩
          omega
        · exact (iterate_bounds N hd Hrange j h0 h1 s).2

/-- Folding `none` through the projection loop yields `none`. -/
theorem proj_foldl_none (fuel : Nat) (t : PyTree) :
    ∀ cs : List Int,
      cs.foldl (fun acc child_id =>
        match acc with
        | none => none
        | some projection =>
          if child_id ∈ projection then some projection
          else
            match get_projection_fuel fuel t child_id with
            | none => none
            | some sub => some (projection ∪ sub)) none = none
  | [] => rfl
  | _ :: cs => proj_foldl_none fuel t cs

/-- The projection fold collects, on top of the accumulator, exactly the
descents of the children it walks, provided each child's recursive call is
adequate at the given fuel. -/
theorem proj_fold_adequate (N : Nat) (hd : Int → Int)
    (Hrange : ∀ j : Int, 0 ≤ hd j ∧ hd j ≤ N)
    (Hneq : ∀ j : Int, 1 ≤ j → j ≤ N → hd j ≠ j)
    (Hzero : hd 0 = 0) (t : PyTree) (fuel : Nat)
    (IH : ∀ (n' : Int) (m' : Nat), 0 ≤ n' → n' ≤ N →
      hd^[m'] n' = 0 → (∀ k < m', hd^[k] n' ≠ 0) → N + 2 ≤ m' + fuel →
      ∃ S, get_projection_fuel fuel t n' = some S ∧
        ∀ j, j ∈ S ↔ (0 ≤ j ∧ j ≤ N ∧ ∃ k : Nat, hd^[k] j = n'))
    (n : Int) (m : Nat) (hn0 : 0 ≤ n) (hnN : n ≤ N)
    (hm : hd^[m] n = 0) (hmin : ∀ k < m, hd^[k] n ≠ 0)
    (hfuel : N + 2 ≤ m + (fuel + 1)) :
    ∀ (csuf done : List Int) (acc : Finset Int),
      (done ++ csuf).Nodup →
      (∀ c ∈ done ++ csuf, 1 ≤ c ∧ c ≤ (N : Int) ∧ hd c = n) →
      (∀ j, j ∈ acc ↔ (j = n ∨ ∃ c ∈ done, 0 ≤ j ∧ j ≤ (N : Int) ∧
        ∃ k : Nat, hd^[k] j = c)) →
      ∃ S, csuf.foldl (fun acc child_id =>
          match acc with
          | none => none
          | some projection =>
            if child_id ∈ projection then some projection
            else
              match get_projection_fuel fuel t child_id with
              | none => none
              | some sub => some (projection ∪ sub)) (some acc) = some S ∧
        (∀ j, j ∈ S ↔ (j = n ∨ ∃ c ∈ done ++ csuf, 0 ≤ j ∧ j ≤ (N : Int) ∧
          ∃ k : Nat, hd^[k] j = c)) := by
  intro csuf
  induction csuf with
  | nil =>
    intro done acc _ _ hacc
    refine ⟨acc, rfl, ?_⟩
    simpa using hacc
  | cons c ctail ihc =>
    intro done acc hnd hcs hacc
    have hcprops : 1 ≤ c ∧ c ≤ (N : Int) ∧ hd c = n :=
      hcs c (by simp)
    have hcm : hd^[m + 1] c = 0 := by
      have h1 : hd^[m + 1] c = hd^[m] (hd^[1] c) := Function.iterate_add_apply hd m 1 c
      simp only [Function.iterate_one, hcprops.2.2] at h1
      rw [h1, hm]
    have hcmin : ∀ k < m + 1, hd^[k] c ≠ 0 := by
      intro k hk
      cases k with
      | zero =>
        simp only [Function.iterate_zero, id_eq]
        have := hcprops.1
        omega
      | succ s =>
        have h1 : hd^[s + 1] c = hd^[s] (hd^[1] c) := Function.iterate_add_apply hd s 1 c
        simp only [Function.iterate_one, hcprops.2.2] at h1
        rw [h1]
        exact hmin s (by omega)
    have hcnot : c ∉ acc := by
      intro hcin
      rcases (hacc c).mp hcin with hceq | ⟨c', hc'done, _, _, k, hk⟩
      · exact Hneq c hcprops.1 hcprops.2.1 (by rw [hcprops.2.2, hceq])
      · have hc'props : 1 ≤ c' ∧ c' ≤ (N : Int) ∧ hd c' = n :=
          hcs c' (by simp [hc'done])
        have hcne : c ≠ c' := by
          intro he
          have hdisj := (List.nodup_append.mp hnd).2.2
          rw [he] at hdisj
          exact hdisj hc'done (by simp)
        exact sibling_not_desc N hd Hrange Hzero n c c' m hm hmin
          hcprops.1 hcprops.2.2 hc'props.1 hc'props.2.2 hcne k hk
    rcases IH c (m + 1) (by omega) hcprops.2.1 hcm hcmin (by omega) with
      ⟨sub, hsub, hsubchar⟩
    have hstep : (c :: ctail).foldl (fun acc child_id =>
        match acc with
        | none => none
        | some projection =>
          if child_id ∈ projection then some projection
          else
            match get_projection_fuel fuel t child_id with
            | none => none
            | some sub => some (projection ∪ sub)) (some acc) =
        ctail.foldl (fun acc child_id =>
          match acc with
          | none => none
          | some projection =>
            if child_id ∈ projection then some projection
            else
              match get_projection_fuel fuel t child_id with
              | none => none
              | some sub => some (projection ∪ sub)) (some (acc ∪ sub)) := by
      show List.foldl _ (if c ∈ acc then some acc else
        match get_projection_fuel fuel t c with
        | none => none
        | some sub => some (acc ∪ sub)) ctail = _
      rw [if_neg hcnot, hsub]
    rw [hstep]
    have hlist : done ++ c :: ctail = (done ++ [c]) ++ ctail := by simp
    have hacc' : ∀ j, j ∈ acc ∪ sub ↔ (j = n ∨ ∃ c' ∈ done ++ [c], 0 ≤ j ∧
        j ≤ (N : Int) ∧ ∃ k : Nat, hd^[k] j = c') := by
      intro j
      simp only [Finset.mem_union, hacc j, hsubchar j]
      constructor
      · rintro ((hj | ⟨c', hc', hj⟩) | ⟨h0, h1, k, hk⟩)
        · exact Or.inl hj
        · exact Or.inr ⟨c', by simp [hc'], hj⟩
        · exact Or.inr ⟨c, by simp, h0, h1, k, hk⟩
      · rintro (hj | ⟨c', hc', hj⟩)
        · exact Or.inl (Or.inl hj)
        · rcases List.mem_append.mp hc' with h | h
          · exact Or.inl (Or.inr ⟨c', h, hj⟩)
          · have hcc : c' = c := by simpa using h
            rw [hcc] at hj
            exact Or.inr hj
    rcases ihc (done ++ [c]) (acc ∪ sub) (by rw [← hlist]; exact hnd)
      (by rw [← hlist]; exact hcs) hacc' with ⟨S, hS, hchar⟩
    refine ⟨S, hS, ?_⟩
    intro j
    rw [hchar j, ← hlist]

/-- A Python subscript within range yields the `getD` value. -/
theorem pyListGet_in_range (l : List α) (i : Int) (h0 : 0 ≤ i) (h1 : i < l.length)
    (dflt : α) : pyListGet l i = some (l.getD i.toNat dflt) := by
  unfold pyListGet pyResolveIdx
  rw [if_pos ⟨h0, h1⟩]
  have hlt : i.toNat < l.length := by omega
  have hg : l.get? i.toNat = some (l.get ⟨i.toNat, hlt⟩) := List.get?_eq_get hlt
  have hgd : l.getD i.toNat dflt = l.get ⟨i.toNat, hlt⟩ := by
    rw [List.getD_eq_get?, hg]
    rfl
  show l.get? i.toNat = some (l.getD i.toNat dflt)
  rw [hg, hgd]

/-- Adequacy of the fueled recursive descent: on a single-parent children
structure indexed by the head assignment `hd`, starting from a node with a
minimal root chain of length `m` and fuel at least `N + 2 - m`, the descent
succeeds and computes exactly the set of nodes whose head chain passes
through the start. -/
theorem get_projection_adequate (N : Nat) (hd : Int → Int)
    (Hrange : ∀ j : Int, 0 ≤ hd j ∧ hd j ≤ N)
    (Hneq : ∀ j : Int, 1 ≤ j → j ≤ N → hd j ≠ j)
    (Hzero : hd 0 = 0) (t : PyTree)
    (Hlen : (N : Int) < (t.children.length : Int))
    (Hchar : ∀ k : Int, 0 ≤ k → k ≤ N → ∀ j : Int,
      (j ∈ (pyListGet t.children k).getD []) ↔ (1 ≤ j ∧ j ≤ (N : Int) ∧ hd j = k))
    (Hnd : ∀ k : Int, 0 ≤ k → k ≤ N → ((pyListGet t.children k).getD []).Nodup) :
    ∀ (fuel : Nat) (n : Int) (m : Nat), 0 ≤ n → n ≤ N →
      hd^[m] n = 0 → (∀ k < m, hd^[k] n ≠ 0) → N + 2 ≤ m + fuel →
      ∃ S, get_projection_fuel fuel t n = some S ∧
        ∀ j : Int, j ∈ S ↔ (0 ≤ j ∧ j ≤ (N : Int) ∧ ∃ k : Nat, hd^[k] j = n) := by
  intro fuel
  induction fuel with
  | zero =>
    intro n m hn0 hnN hm hmin hfuel
    have := chain_min_le N hd Hrange n hn0 hnN m hm hmin
    omega
  | succ fuel ih =>
    intro n m hn0 hnN hm hmin hfuel
    have hget : pyListGet t.children n = some (t.children.getD n.toNat []) :=
      pyListGet_in_range t.children n hn0 (lt_of_le_of_lt hnN Hlen) []
    have hcs_eq : (pyListGet t.children n).getD [] = t.children.getD n.toNat [] := by
      rw [hget]
      rfl
    have hunfold : get_projection_fuel (fuel + 1) t n =
        (t.children.getD n.toNat []).foldl (fun acc child_id =>
          match acc with
          | none => none
          | some projection =>
            if child_id ∈ projection then some projection
            else
              match get_projection_fuel fuel t child_id with
              | none => none
              | some sub => some (projection ∪ sub)) (some {n}) := by
      show (match pyListGet t.children n with
        | none => none
        | some cs => cs.foldl _ (some {n})) = _
      rw [hget]
    rcases proj_fold_adequate N hd Hrange Hneq Hzero t fuel ih n m hn0 hnN hm hmin hfuel
      (t.children.getD n.toNat []) [] {n}
      (by rw [List.nil_append, ← hcs_eq]; exact Hnd n hn0 hnN)
      (by rw [List.nil_append, ← hcs_eq]
          intro c hc
          exact (Hchar n hn0 hnN c).mp hc)
      (by intro j; simp) with ⟨S, hS, hchar⟩
    refine ⟨S, by rw [hunfold]; exact hS, ?_⟩
    intro j
    rw [hchar j]
    constructor
    · rintro (hj | ⟨c, hc, h0, h1, k, hk⟩)
      · exact ⟨by rw [hj]; exact hn0, by rw [hj]; exact hnN, 0, by rw [hj]; rfl⟩
      · rw [List.nil_append, ← hcs_eq] at hc
        have hcprops := (Hchar n hn0 hnN c).mp hc
        refine ⟨h0, h1, k + 1, ?_⟩
        have h2 : hd^[k + 1] j = hd^[1] (hd^[k] j) := by
          rw [Nat.add_comm, Function.iterate_add_apply]
        rw [h2, hk]
        simpa using hcprops.2.2
    · rintro ⟨h0, h1, k, hk⟩
      by_cases hjn : j = n
      · exact Or.inl hjn
      · rcases desc_split N hd Hrange Hzero k j n hk hjn h0 h1 with
          ⟨c, hc1, hcN, hhc, kk, hkk⟩
        refine Or.inr ⟨c, ?_, h0, h1, kk, hkk⟩
        rw [List.nil_append, ← hcs_eq]
        exact (Hchar n hn0 hnN c).mpr ⟨hc1, hcN, hhc⟩

/-- A Python in-place update within range. -/
theorem pyListModify_in_range (l : List α) (i : Int) (f : α → α)
    (h0 : 0 ≤ i) (h1 : i < l.length) (dflt : α) :
    pyListModify l i f = some (l.set i.toNat (f (l.getD i.toNat dflt))) := by
  unfold pyListModify pyResolveIdx
  rw [if_pos ⟨h0, h1⟩]
  have hlt : i.toNat < l.length := by omega
  have hg : l.get? i.toNat = some (l.get ⟨i.toNat, hlt⟩) := List.get?_eq_get hlt
  have hgd : l.getD i.toNat dflt = l.get ⟨i.toNat, hlt⟩ := by
    rw [List.getD_eq_get?, hg]
    rfl
  show (match l.get? i.toNat with
    | none => none
    | some a => some (l.set i.toNat (f a))) = _
  rw [hg, hgd]

/-- `getD` after `set` at the written position. -/
theorem getD_set_self : ∀ (l : List α) (n : Nat) (a dflt : α), n < l.length →
    (l.set n a).getD n dflt = a
  | [], _, _, _, h => by simp at h
  | _ :: _, 0, _, _, _ => rfl
  | _ :: t, n + 1, a, dflt, h => getD_set_self t n a dflt (by simpa using h)

/-- `getD` after `set` at another position. -/
theorem getD_set_ne : ∀ (l : List α) (m n : Nat) (a dflt : α), m ≠ n →
    (l.set m a).getD n dflt = l.getD n dflt
  | [], _, _, _, _, _ => by simp
  | _ :: _, 0, 0, _, _, h => absurd rfl h
  | _ :: _, 0, _ + 1, _, _, _ => rfl
  | _ :: _, _ + 1, 0, _, _, _ => rfl
  | _ :: t, m + 1, n + 1, a, dflt, h =>
    getD_set_ne t m n a dflt (fun he => h (by rw [he]))

/-- `getD` of a mapped list within range. -/
theorem getD_map_lt (f : α → β) : ∀ (l : List α) (n : Nat), n < l.length →
    ∀ (d : β) (d' : α), (l.map f).getD n d = f (l.getD n d')
  | [], _, h => by simp at h
  | _ :: _, 0, _ => fun _ _ => rfl
  | _ :: t, n + 1, h => fun d d' => getD_map_lt f t n (by simpa using h) d d'

/-- `getD` of `replicate`. -/
theorem getD_replicate (a dflt : α) : ∀ (k n : Nat), n < k →
    (List.replicate k a).getD n dflt = a
  | 0, _, h => by simp at h
  | _ + 1, 0, _ => rfl
  | k + 1, n + 1, h => getD_replicate a dflt k n (by omega)

/-- The `build_tree` row loop on well-formed word rows with ids `b+1 ..
b+rows.length` and in-range heads: it finishes, appends every row to
`nodes`, and accumulates each id into the children set of its head. -/
theorem build_tree_rows_spec (N : Nat) (hd : Int → Int)
    (Hrange : ∀ j : Int, 0 ≤ hd j ∧ hd j ≤ N)
    (Hneq : ∀ j : Int, 1 ≤ j → j ≤ N → hd j ≠ j) :
    ∀ (rows : List UDLine) (b : Nat), b + rows.length ≤ N →
    ∀ (node_line : Nat) (nodes : List UDLine) (children : List (Finset Int))
      (linenos : List Nat),
      children.length = N + 1 →
      (∀ idx (hidx : idx < rows.length),
        (rows.get ⟨idx, hidx⟩).length = COLCOUNT ∧
        is_word (rows.get ⟨idx, hidx⟩) = true ∧
        pyInt (colAt (rows.get ⟨idx, hidx⟩) ID) = some ((b + idx + 1 : Nat) : Int) ∧
        pyInt (colAt (rows.get ⟨idx, hidx⟩) HEAD) = some (hd ((b + idx + 1 : Nat) : Int))) →
      ∃ (children' : List (Finset Int)) (linenos' : List Nat),
        build_tree_rows rows node_line nodes children linenos =
          BTAcc.done (nodes ++ rows) children' linenos' ∧
        children'.length = N + 1 ∧
        ∀ k : Nat, k < N + 1 →
          children'.getD k ∅ = children.getD k ∅ ∪
            (Finset.Icc ((b + 1 : Nat) : Int) ((b + rows.length : Nat) : Int)).filter
              (fun j => hd j = (k : Int)) := by
  intro rows
  induction rows with
  | nil =>
    intro b _ node_line nodes children linenos hchlen _
    refine ⟨children, linenos, by simp [build_tree_rows], hchlen, ?_⟩
    intro k _
    have hempty : (Finset.Icc ((b + 1 : Nat) : Int) ((b + 0 : Nat) : Int)) = ∅ :=
      Finset.Icc_eq_empty (by push_cast; omega)
    simp [hempty]
  | cons cols rest ih =>
    intro b hbN node_line nodes children linenos hchlen hrows
    rcases hrows 0 (by simp) with ⟨hc10, hcw, hcid, hchead⟩
    simp only [List.get] at hc10 hcw hcid hchead
    have hid1 : 1 ≤ ((b + 1 : Nat) : Int) := by push_cast; omega
    have hidN : ((b + 1 : Nat) : Int) ≤ N := by
      push_cast
      have := hbN
      simp only [List.length_cons] at this
      omega
    have hne : hd ((b + 1 : Nat) : Int) ≠ ((b + 1 : Nat) : Int) := Hneq _ hid1 hidN
    have hh0 : 0 ≤ hd ((b + 1 : Nat) : Int) := (Hrange _).1
    have hhN : hd ((b + 1 : Nat) : Int) ≤ N := (Hrange _).2
    have hmod := pyListModify_in_range children (hd ((b + 1 : Nat) : Int))
      (fun s => insert ((b + 1 : Nat) : Int) s) hh0 (by
        rw [hchlen]
        have h2 : ((N : Nat) : Int) < (((N + 1 : Nat) : Int)) := by push_cast; omega
        omega) ∅
    have hstep : build_tree_rows (cols :: rest) node_line nodes children linenos =
        build_tree_rows rest (node_line + 1) (nodes ++ [cols])
          (children.set (hd ((b + 1 : Nat) : Int)).toNat
            (insert ((b + 1 : Nat) : Int)
              (children.getD (hd ((b + 1 : Nat) : Int)).toNat ∅)))
          (linenos ++ [node_line + 1]) := by
      show (if ¬ is_word cols then _ else _) = _
      rw [if_neg (by simp [hcw])]
      rw [if_neg (by rw [hc10]; decide)]
      rw [hcid, hchead]
      show (if hd ((b + 1 : Nat) : Int) = ((b + 1 : Nat) : Int) then _ else _) = _
      rw [if_neg hne, hmod]
    set children₂ := children.set (hd ((b + 1 : Nat) : Int)).toNat
      (insert ((b + 1 : Nat) : Int)
        (children.getD (hd ((b + 1 : Nat) : Int)).toNat ∅)) with hch2
    have hch2len : children₂.length = N + 1 := by
      rw [hch2, List.length_set, hchlen]
    have hrest : ∀ idx (hidx : idx < rest.length),
        (rest.get ⟨idx, hidx⟩).length = COLCOUNT ∧
        is_word (rest.get ⟨idx, hidx⟩) = true ∧
        pyInt (colAt (rest.get ⟨idx, hidx⟩) ID) = some ((b + 1 + idx + 1 : Nat) : Int) ∧
        pyInt (colAt (rest.get ⟨idx, hidx⟩) HEAD) =
          some (hd ((b + 1 + idx + 1 : Nat) : Int)) := by
      intro idx hidx
      rcases hrows (idx + 1) (by simpa using Nat.succ_lt_succ hidx) with ⟨h1, h2, h3, h4⟩
      have hgetc : (cols :: rest).get ⟨idx + 1, by simpa using Nat.succ_lt_succ hidx⟩ =
          rest.get ⟨idx, hidx⟩ := rfl
      rw [hgetc] at h1 h2 h3 h4
      have hcast : ((b + (idx + 1) + 1 : Nat) : Int) = ((b + 1 + idx + 1 : Nat) : Int) := by
        push_cast
        omega
      rw [hcast] at h3 h4
      exact ⟨h1, h2, h3, h4⟩
    rcases ih (b + 1) (by simp at hbN ⊢; omega) (node_line + 1) (nodes ++ [cols])
      children₂ (linenos ++ [node_line + 1]) hch2len hrest with
      ⟨children', linenos', hdone, hlen', hchar'⟩
    refine ⟨children', linenos', ?_, hlen', ?_⟩
    · rw [hstep, hdone]
      simp
    · intro k hk
      rw [hchar' k hk]
      have hicc : (Finset.Icc ((b + 1 : Nat) : Int)
          ((b + (cols :: rest).length : Nat) : Int)) =
          insert ((b + 1 : Nat) : Int)
            (Finset.Icc ((b + 1 + 1 : Nat) : Int) ((b + 1 + rest.length : Nat) : Int)) := by
        ext x
        simp only [Finset.mem_Icc, Finset.mem_insert, List.length_cons]
        push_cast
        omega
      rw [hicc, Finset.filter_insert]
      by_cases heq : (hd ((b + 1 : Nat) : Int)).toNat = k
      · have heqi : hd ((b + 1 : Nat) : Int) = (k : Int) := by
          rw [← heq, Int.toNat_of_nonneg hh0]
        have hgd2 : children₂.getD k ∅ =
            insert ((b + 1 : Nat) : Int) (children.getD k ∅) := by
          rw [hch2, ← heq]
          rw [getD_set_self children _ _ ∅ (by rw [hchlen]; omega)]
        rw [hgd2, if_pos heqi, Finset.insert_union, Finset.union_insert]
      · have hnei : ¬ (hd ((b + 1 : Nat) : Int) = (k : Int)) := by
          intro hx
          exact heq (by rw [hx]; simp)
        have hgd2 : children₂.getD k ∅ = children.getD k ∅ := by
          rw [hch2, getD_set_ne children _ _ _ ∅ heq]
        rw [hgd2, if_neg hnei]

/-- `headD` is `getD 0`. -/
theorem headD_eq_getD : ∀ (l : List α) (d : α), l.headD d = l.getD 0 d
  | [], _ => rfl
  | _ :: _, _ => rfl

/-- C3 (amended): for a sentence of word rows with ids `1..N`, parseable
HEADs in `0..N` and no self-loop, at most one child of the virtual root (or
multi-root allowed): `build_tree` returns a tree exactly when every word
index `1..N` is reachable from the root 0, and on failure it emits one
`non-tree` diagnostic listing, sorted ascending, exactly the unreachable
indices that are at most `N - 1` — index `N` itself is never listed (the
source checks `range(1, len(nodes) - 1)`). -/
theorem claim_C3_build_tree_amended (N : Nat) (hd : Int → Int) (sentence : List UDLine)
    (single_root : Bool) (sl : Nat)
    (HN : sentence.length = N)
    (Hrange : ∀ j : Int, 0 ≤ hd j ∧ hd j ≤ N)
    (Hneq : ∀ j : Int, 1 ≤ j → j ≤ N → hd j ≠ j)
    (Hzero : hd 0 = 0)
    (Hrows : ∀ idx (hidx : idx < sentence.length),
      (sentence.get ⟨idx, hidx⟩).length = COLCOUNT ∧
      is_word (sentence.get ⟨idx, hidx⟩) = true ∧
      pyInt (colAt (sentence.get ⟨idx, hidx⟩) ID) = some ((idx + 1 : Nat) : Int) ∧
      pyInt (colAt (sentence.get ⟨idx, hidx⟩) HEAD) = some (hd ((idx + 1 : Nat) : Int)))
    (Hroot : ((Finset.Icc (1 : Int) N).filter (fun j => hd j = 0)).card ≤ 1 ∨
      single_root = false) :
    ((∃ t, build_tree sentence single_root sl = BTOut.built t) ↔
      (∀ i : Int, 1 ≤ i → i ≤ N → reaches hd i)) ∧
    ((∃ i : Int, 1 ≤ i ∧ i ≤ (N : Int) ∧ ¬ reaches hd i) →
      ∃ L : List Int, build_tree sentence single_root sl = BTOut.noTree [non_tree_diag L] ∧
        List.Sorted (· < ·) L ∧
        ∀ x : Int, x ∈ L ↔ (1 ≤ x ∧ x ≤ (N : Int) - 1 ∧ ¬ reaches hd x)) := by
  have Hrows0 : ∀ idx (hidx : idx < sentence.length),
      (sentence.get ⟨idx, hidx⟩).length = COLCOUNT ∧
      is_word (sentence.get ⟨idx, hidx⟩) = true ∧
      pyInt (colAt (sentence.get ⟨idx, hidx⟩) ID) = some ((0 + idx + 1 : Nat) : Int) ∧
      pyInt (colAt (sentence.get ⟨idx, hidx⟩) HEAD) =
        some (hd ((0 + idx + 1 : Nat) : Int)) := by
    intro idx hidx
    have h : (0 + idx + 1 : Nat) = idx + 1 := by omega
    rw [h]
    exact Hrows idx hidx
  rcases build_tree_rows_spec N hd Hrange Hneq sentence 0 (by omega) (sl - 1)
    [["0", "_", "_", "_", "_", "_", "_", "_", "_", "_"]]
    (List.replicate (sentence.length + 1) (∅ : Finset Int)) [sl]
    (by simp [HN]) Hrows0 with ⟨children', linenos', hdone, hchlen', hchar⟩
  have hchar' : ∀ k : Nat, k < N + 1 →
      children'.getD k ∅ =
        (Finset.Icc (1 : Int) (N : Int)).filter (fun j => hd j = (k : Int)) := by
    intro k hk
    rw [hchar k hk, getD_replicate _ _ _ _ (by omega)]
    have hicc : (Finset.Icc ((0 + 1 : Nat) : Int) ((0 + sentence.length : Nat) : Int)) =
        Finset.Icc (1 : Int) (N : Int) := by
      ext x
      simp only [Finset.mem_Icc, HN]
      push_cast
      omega
    rw [hicc, Finset.empty_union]
  have hroot_if : ¬ ((children'.headD ∅).card > 1 ∧ single_root = true) := by
    rw [headD_eq_getD, hchar' 0 (by omega)]
    rintro ⟨hcard, hsr⟩
    rcases Hroot with h | h
    · have hceq : (((0 : Nat) : Int)) = (0 : Int) := by norm_num
      simp only [hceq] at hcard
      omega
    · rw [h] at hsr
      exact Bool.noConfusion hsr
  set tree : PyTree := ⟨[["0", "_", "_", "_", "_", "_", "_", "_", "_", "_"]] ++ sentence,
    children'.map (fun c => finsetSortL c), linenos'⟩ with htree
  have hchlen : tree.children.length = N + 1 := by
    rw [htree]
    simpa using hchlen'
  have Hlen : (N : Int) < (tree.children.length : Int) := by
    rw [hchlen]
    push_cast
    omega
  have Hchar2 : ∀ k : Int, 0 ≤ k → k ≤ N → ∀ j : Int,
      (j ∈ (pyListGet tree.children k).getD []) ↔
        (1 ≤ j ∧ j ≤ (N : Int) ∧ hd j = k) := by
    intro k hk0 hkN j
    have hget := pyListGet_in_range tree.children k hk0 (by omega) []
    rw [hget]
    show j ∈ tree.children.getD k.toNat [] ↔ _
    have hkk : k.toNat < children'.length := by
      rw [hchlen']
      omega
    rw [htree]
    show j ∈ (children'.map (fun c => finsetSortL c)).getD k.toNat [] ↔ _
    rw [getD_map_lt _ children' k.toNat hkk [] ∅]
    rw [finsetSortL_eq_sort, Finset.mem_sort, hchar' k.toNat (by omega)]
    rw [Finset.mem_filter, Finset.mem_Icc]
    have : ((k.toNat : Nat) : Int) = k := Int.toNat_of_nonneg hk0
    rw [this]
    tauto
  have Hnd2 : ∀ k : Int, 0 ≤ k → k ≤ N → ((pyListGet tree.children k).getD []).Nodup := by
    intro k hk0 hkN
    have hget := pyListGet_in_range tree.children k hk0 (by omega) []
    rw [hget]
    show (tree.children.getD k.toNat []).Nodup
    have hkk : k.toNat < children'.length := by
      rw [hchlen']
      omega
    rw [htree]
    show ((children'.map (fun c => finsetSortL c)).getD k.toNat []).Nodup
    rw [getD_map_lt _ children' k.toNat hkk [] ∅]
    rw [finsetSortL_eq_sort]
    exact Finset.sort_nodup _ _
  rcases get_projection_adequate N hd Hrange Hneq Hzero tree Hlen Hchar2 Hnd2
    (sentence.length + 2) 0 0 (by omega) (by push_cast; omega) (by simp)
    (by omega) (by omega) with ⟨S, hS, hSchar⟩
  have hbt : build_tree sentence single_root sl =
      (if (Finset.Ico (1 : Int) ((tree.nodes.length : Int) - 1) \ S) ≠ ∅ then
        BTOut.noTree [non_tree_diag
          (finsetSortL (Finset.Ico (1 : Int) ((tree.nodes.length : Int) - 1) \ S))]
      else BTOut.built tree) := by
    show (match build_tree_rows sentence (sl - 1)
        [["0", "_", "_", "_", "_", "_", "_", "_", "_", "_"]]
        (List.replicate (sentence.length + 1) (∅ : Finset Int)) [sl] with
      | BTAcc.crash => BTOut.crash
      | BTAcc.bail => BTOut.noTree []
      | BTAcc.selfLoop ids nl => BTOut.noTree [head_self_loop_diag ids nl]
      | BTAcc.done nodes children linenos => _) = _
    rw [hdone]
    show (if (children'.headD ∅).card > 1 ∧ single_root = true then _ else _) = _
    rw [if_neg hroot_if]
    show (match get_projection_fuel (sentence.length + 2) tree 0 with
      | none => BTOut.crash
      | some projection => _) = _
    rw [hS]
  have hnlen : ((tree.nodes.length : Int) - 1) = (N : Int) := by
    rw [htree]
    simp [HN]
  rw [hnlen] at hbt
  have hmem : ∀ x : Int, x ∈ (Finset.Ico (1 : Int) (N : Int) \ S) ↔
      (1 ≤ x ∧ x < (N : Int) ∧ ¬ reaches hd x) := by
    intro x
    rw [Finset.mem_sdiff, Finset.mem_Ico, hSchar x]
    unfold reaches
    constructor
    · rintro ⟨⟨h1, h2⟩, h3⟩
      exact ⟨h1, h2, fun ⟨k, hk⟩ => h3 ⟨by omega, by omega, k, hk⟩⟩
    · rintro ⟨h1, h2, h3⟩
      exact ⟨⟨h1, h2⟩, fun ⟨_, _, k, hk⟩ => h3 ⟨k, hk⟩⟩
  have hempty_iff : (Finset.Ico (1 : Int) (N : Int) \ S) = ∅ ↔
      (∀ i : Int, 1 ≤ i → i ≤ N → reaches hd i) := by
    constructor
    · intro he i h1 hN2
      by_contra hnr
      by_cases hiN : i < N
      · have : i ∈ (Finset.Ico (1 : Int) (N : Int) \ S) := (hmem i).mpr ⟨h1, hiN, hnr⟩
        rw [he] at this
        exact absurd this (Finset.not_mem_empty i)
      · have hiN' : i = N := by omega
        have hh := Hrange i
        have hhne := Hneq i h1 hN2
        by_cases hh0 : hd i = 0
        · exact hnr ⟨1, by simpa using hh0⟩
        · have hh1 : 1 ≤ hd i := by omega
          have hhN : hd i < (N : Int) := by omega
          have hnr' : ¬ reaches hd (hd i) := by
            rintro ⟨k, hk⟩
            exact hnr ⟨k + 1, by rw [Function.iterate_succ_apply]; exact hk⟩
          have : hd i ∈ (Finset.Ico (1 : Int) (N : Int) \ S) :=
            (hmem (hd i)).mpr ⟨hh1, hhN, hnr'⟩
          rw [he] at this
          exact absurd this (Finset.not_mem_empty _)
    · intro hall
      rw [Finset.eq_empty_iff_forall_not_mem]
      intro x hx
      rcases (hmem x).mp hx with ⟨h1, h2, h3⟩
      exact h3 (hall x h1 (by omega))
  constructor
  · constructor
    · rintro ⟨t, ht⟩
      rw [hbt] at ht
      by_cases he : (Finset.Ico (1 : Int) (N : Int) \ S) = ∅
      · exact hempty_iff.mp he
      · rw [if_pos he] at ht
        exact BTOut.noConfusion ht
    · intro hall
      refine ⟨tree, ?_⟩
      rw [hbt, if_neg (by simp [hempty_iff.mpr hall])]
  · rintro ⟨i, h1, h2, h3⟩
    have hne : (Finset.Ico (1 : Int) (N : Int) \ S) ≠ ∅ := by
      intro he
      exact h3 (hempty_iff.mp he i h1 h2)
    refine ⟨finsetSortL (Finset.Ico (1 : Int) (N : Int) \ S), ?_, ?_, ?_⟩
    · rw [hbt, if_pos hne]
    · rw [finsetSortL_eq_sort]
      exact Finset.sort_sorted_lt _
    · intro x
      rw [finsetSortL_eq_sort, Finset.mem_sort, hmem x]
      constructor
      · rintro ⟨a, b, c⟩
        exact ⟨a, by omega, c⟩
      · rintro ⟨a, b, c⟩
        exact ⟨a, by omega, c⟩

/-- Head assignment of the C3 counterexample sentence: word 1 under the
root, words 2 and 3 in a mutual cycle. -/
def cexHead : Int → Int :=
  fun j => if j = 1 then 0 else if j = 2 then 3 else if j = 3 then 2 else 0

/-- C3 counterexample: on the sentence with HEADs `0,3,2` (words 2 and 3 form
a cycle), `build_tree` emits the `non-tree` diagnostic listing only word 2,
although word 3 = N is also unreachable from the root — refuting the claim
that all unreachable indices, in particular N, are listed. -/
theorem claim_C3_counterexample :
    build_tree
      [["1", "a", "a", "N", "_", "_", "0", "root", "_", "_"],
       ["2", "b", "b", "N", "_", "_", "3", "dep", "_", "_"],
       ["3", "c", "c", "N", "_", "_", "2", "dep", "_", "_"]] true 1 =
      BTOut.noTree [non_tree_diag [2]] ∧
    pyInt (colAt (["3", "c", "c", "N", "_", "_", "2", "dep", "_", "_"] : List String)
      HEAD) = some (cexHead 3) ∧
    ¬ reaches cexHead 3 ∧
    (3 : Int) ∉ ([2] : List Int) := by
  refine ⟨by decide, by decide, ?_, by decide⟩
  have hcyc : ∀ m : Nat, cexHead^[m] 3 = 3 ∨ cexHead^[m] 3 = 2 := by
    intro m
    induction m with
    | zero => left; rfl
    | succ m ih =>
      rw [Function.iterate_succ_apply']
      rcases ih with h | h <;> rw [h]
      · right; decide
      · left; decide
  rintro ⟨m, hm⟩
  rcases hcyc m with h | h <;> rw [hm] at h <;> exact absurd h (by decide)

/-- Head assignment of the C3 witness sentence: word 1 under the root, words
2 and 3 under word 1. -/
def wtHead : Int → Int :=
  fun j => if j = 2 ∨ j = 3 then 1 else 0

/-- Witness for C3 (amended): the sentence with HEADs `0,1,1` satisfies every
hypothesis and all words are reachable, so `build_tree` returns a tree. -/
theorem claim_C3_build_tree_amended_witness :
    ∃ t, build_tree
      [["1", "a", "a", "N", "_", "_", "0", "root", "_", "_"],
       ["2", "b", "b", "N", "_", "_", "1", "dep", "_", "_"],
       ["3", "c", "c", "N", "_", "_", "1", "dep", "_", "_"]] true 1 = BTOut.built t := by
  have h := claim_C3_build_tree_amended 3 wtHead
    [["1", "a", "a", "N", "_", "_", "0", "root", "_", "_"],
     ["2", "b", "b", "N", "_", "_", "1", "dep", "_", "_"],
     ["3", "c", "c", "N", "_", "_", "1", "dep", "_", "_"]] true 1 rfl
    (by intro j; unfold wtHead; split <;> omega)
    (by intro j h1 h2; unfold wtHead; split <;> omega)
    (by decide)
    (by decide)
    (by left; decide)
  apply h.1.mpr
  intro i h1 h3
  interval_cases i
  · exact ⟨1, by decide⟩
  · exact ⟨2, by decide⟩
  · exact ⟨2, by decide⟩

/-- One node record of the enhanced graph (`egraph` entries).  Python builds
these as dicts whose keys appear incrementally; fields that a `setdefault`
with an empty dict leaves unset are modelled by defaults, which the source
never reads before assigning. -/
structure GraphNode where
  cols : UDLine := []
  deps : List (String × String) := []
  parents : List String := []
  children : List String := []
  lineno : Nat := 0
deriving DecidableEq

/-- The enhanced graph: an insertion-ordered association list modelling the
Python dict keyed by node id. -/
abbrev EGraph : Type := List (String × GraphNode)

/-- Dict lookup; `none` models `KeyError`. -/
def egGet (g : EGraph) (k : String) : Option GraphNode :=
  (g.find? (fun p => p.1 = k)).map (fun p => p.2)

/-- Dict update with `setdefault` semantics: modify the entry in place, or
append a freshly defaulted one. -/
def egUpd (g : EGraph) (k : String) (f : GraphNode → GraphNode) : EGraph :=
  if (g.find? (fun p => p.1 = k)).isSome then
    g.map (fun p => if p.1 = k then (p.1, f p.2) else p)
  else g ++ [(k, f {})]

/-- Python `set.add` modelled on insertion-ordered duplicate-free lists. -/
def addUniq (l : List String) (x : String) : List String :=
  if x ∈ l then l else l ++ [x]

/-- Result of the fueled `get_graph_projection`: exhausting the fuel models
`RecursionError`, a failed dict lookup models `KeyError`. -/
inductive GPRes where
  | outOfFuel : GPRes
  | keyErr : GPRes
  | ok : Finset String → GPRes
deriving DecidableEq

/-- `get_graph_projection` from the source, with fuel for the Python call
stack.  The guard only skips children already in the local projection set, so
a cycle reachable from the start is re-descended forever: no fuel suffices. -/
def get_graph_projection_fuel : Nat → EGraph → String → GPRes
  | 0, _, _ => GPRes.outOfFuel
  | fuel + 1, g, node =>
    match egGet g node with
    | none => GPRes.keyErr
    | some nd =>
      nd.children.foldl (fun acc child =>
        match acc with
        | GPRes.ok projection =>
          if child ∈ projection then GPRes.ok projection
          else
            match get_graph_projection_fuel fuel g child with
            | GPRes.ok sub => GPRes.ok (projection ∪ sub)
            | e => e
        | e => e) (GPRes.ok {node})

/-- The `unconnected-egraph` diagnostic. -/
def unconnected_egraph_diag (sur : List String) : Diag :=
  { msg := "Enhanced graph is not connected. Nodes " ++ toString sur ++
      " are not reachable from any root",
    testclass := "Enhanced", testlevel := 2, testid := "unconnected-egraph",
    lineno := false }

/-- The state of the `build_egraph` row loop. -/
structure EGState where
  egraph : EGraph
  nodeids : List String
  egraph_exists : Bool

/-- The `build_egraph` row loop: skip multiword rows, abort silently on
missing columns or unparseable DEPS, record every word/empty-node row and add
it to the children set of each of its enhanced heads. -/
def build_egraph_rows : List UDLine → Nat → EGState → Option EGState
  | [], _, st => some st
  | cols :: rest, node_line, st =>
    if is_multiword_token cols then build_egraph_rows rest (node_line + 1) st
    else if MISC ≥ cols.length then none
    else
      match deps_list cols with
      | DepsRes.noCol => none
      | DepsRes.malformed => none
      | DepsRes.ok deps =>
        let heads := deps.map (fun hdd => hdd.1)
        let ex1 := st.egraph_exists || is_empty_node cols
        let g1 := egUpd st.egraph (colAt cols ID) (fun old =>
          { cols := cols, deps := deps,
            parents := deps.foldl (fun acc hdd => addUniq acc hdd.1) [],
            children := old.children, lineno := node_line + 1 })
        let g2 := heads.foldl (fun g h =>
          egUpd g h (fun old => { old with children := addUniq old.children (colAt cols ID) }))
          g1
        build_egraph_rows rest (node_line + 1)
          ⟨g2, addUniq st.nodeids (colAt cols ID), ex1 || !heads.isEmpty⟩

/-- Outcome of `build_egraph`: a `RecursionError` or `KeyError` escaping it,
`None` with the emitted diagnostics, or the built graph. -/
inductive EGOut where
  | crashFuel : EGOut
  | crashKey : EGOut
  | noGraph : List Diag → EGOut
  | graph : EGraph → EGOut
deriving DecidableEq

/-- The synthetic root record of the enhanced graph, before any child is
attached. -/
def egRootNode (sl : Nat) : GraphNode :=
  { cols := ["0", "_", "_", "_", "_", "_", "_", "_", "_", "_"], deps := [],
    parents := [], children := [], lineno := sl }

/-- `build_egraph` from the source, with the projection fuel explicit. -/
def build_egraph (fuel : Nat) (sentence : List UDLine) (sentence_line : Nat) : EGOut :=
  match build_egraph_rows sentence (sentence_line - 1)
      ⟨[("0", egRootNode sentence_line)], [], false⟩ with
  | none => EGOut.noGraph []
  | some st =>
    if !st.egraph_exists then EGOut.noGraph []
    else
      match get_graph_projection_fuel fuel st.egraph "0" with
      | GPRes.outOfFuel => EGOut.crashFuel
      | GPRes.keyErr => EGOut.crashKey
      | GPRes.ok projection =>
        let unreachable := st.nodeids.filter (fun x => x ∉ projection)
        if unreachable ≠ [] then
          EGOut.noGraph [unconnected_egraph_diag
            (List.insertionSort (fun a b : String => a ≤ b) unreachable)]
        else EGOut.graph st.egraph

/-- The cyclic two-word sentence: word 1 has enhanced heads 0 and 2, word 2
has enhanced head 1, so the enhanced graph has the cycle 1 -> 2 -> 1 hanging
off the root. -/
def cyc_sentence : List UDLine :=
  [["1", "a", "a", "N", "_", "_", "2", "dep", "0:root|2:conj", "_"],
   ["2", "b", "b", "N", "_", "_", "1", "dep", "1:conj", "_"]]

/-- In a graph whose nodes "1" and "2" list each other as their only child,
the recursive descent never terminates: the cycle guard lives in the local
projection set of each call, which never contains the grandchild. -/
theorem gproj_cycle12 (g : EGraph) (n1 n2 : GraphNode)
    (h1 : egGet g "1" = some n1) (hc1 : n1.children = ["2"])
    (h2 : egGet g "2" = some n2) (hc2 : n2.children = ["1"]) :
    ∀ fuel, get_graph_projection_fuel fuel g "1" = GPRes.outOfFuel ∧
      get_graph_projection_fuel fuel g "2" = GPRes.outOfFuel := by
  intro fuel
  induction fuel with
  | zero => exact ⟨rfl, rfl⟩
  | succ n ih =>
    constructor
    · simp only [get_graph_projection_fuel, h1, hc1, List.foldl_cons, List.foldl_nil]
      rw [if_neg (by decide), ih.2]
    · simp only [get_graph_projection_fuel, h2, hc2, List.foldl_cons, List.foldl_nil]
      rw [if_neg (by decide), ih.1]

/-- The node for word 1 of `cyc_sentence` in the built graph. -/
def cyc_node1 : GraphNode :=
  { cols := ["1", "a", "a", "N", "_", "_", "2", "dep", "0:root|2:conj", "_"],
    deps := [("0", "root"), ("2", "conj")], parents := ["0", "2"],
    children := ["2"], lineno := 1 }

/-- The node for word 2 of `cyc_sentence` in the built graph. -/
def cyc_node2 : GraphNode :=
  { cols := ["2", "b", "b", "N", "_", "_", "1", "dep", "1:conj", "_"],
    deps := [("1", "conj")], parents := ["1"], children := ["1"], lineno := 2 }

/-- The enhanced graph that `build_egraph` constructs from `cyc_sentence`:
the root points at word 1, and words 1 and 2 point at each other. -/
def cyc_graph : EGraph :=
  [("0", { egRootNode 1 with children := ["1"] }), ("1", cyc_node1), ("2", cyc_node2)]

/-- If the row loop succeeds, the enhanced layer exists and the projection
from "0" exhausts any stack depth, `build_egraph` dies of `RecursionError`. -/
theorem build_egraph_crash (fuel : Nat) (s : List UDLine) (sl : Nat) (st : EGState)
    (h1 : build_egraph_rows s (sl - 1) ⟨[("0", egRootNode sl)], [], false⟩ = some st)
    (h2 : st.egraph_exists = true)
    (h3 : get_graph_projection_fuel fuel st.egraph "0" = GPRes.outOfFuel) :
    build_egraph fuel s sl = EGOut.crashFuel := by
  simp only [build_egraph, h1, h2, h3, Bool.not_true, Bool.false_eq_true, if_false]

/-- C2: refuted. The spec asserts the enhanced-graph reachability
computation terminates on every graph, skipping cycle edges; but on
`cyc_sentence`, whose enhanced heads form the cycle 1 -> 2 -> 1 reachable
from the root, `get_graph_projection` re-descends the cycle at every level:
`build_egraph` exhausts any amount of fuel (Python: `RecursionError`), for
every fuel, instead of reporting unreachable nodes. -/
theorem claim_C2_egraph_cycle_diverges :
    ∀ fuel, build_egraph fuel cyc_sentence 1 = EGOut.crashFuel := by
  intro fuel
  have hcyc := gproj_cycle12 cyc_graph cyc_node1 cyc_node2 rfl rfl rfl rfl
  have hroot : get_graph_projection_fuel fuel cyc_graph "0" = GPRes.outOfFuel := by
    cases fuel with
    | zero => rfl
    | succ n =>
      have h0 : egGet cyc_graph "0" = some { egRootNode 1 with children := ["1"] } := rfl
      have hch : ({ egRootNode 1 with children := ["1"] } : GraphNode).children = ["1"] := rfl
      simp only [get_graph_projection_fuel, h0, hch, List.foldl_cons, List.foldl_nil]
      rw [if_neg (by decide), (hcyc n).1]
  exact build_egraph_crash fuel cyc_sentence 1 ⟨cyc_graph, ["1", "2"], true⟩ rfl rfl hroot

/-- `int(tree["nodes"][x][HEAD])`: look the row up in the tree, look the HEAD
column up in the row, parse it; `none` models `IndexError`/`ValueError`. -/
def headAt (tree : PyTree) (x : Int) : Option Int :=
  match pyListGet tree.nodes x with
  | none => none
  | some row =>
    match pyListGet row ((HEAD : Nat) : Int) with
    | none => none
    | some s => pyInt s

/-- `n` consecutive integers starting at `a`. -/
def intRangeGo (a : Int) : Nat → List Int
  | 0 => []
  | n + 1 => a :: intRangeGo (a + 1) n

/-- Python `range(a, b)` over integers, as the list `a, a+1, ..., b-1`. -/
def pyRangeInt (a b : Int) : List Int :=
  intRangeGo a (b - a).toNat

/-- A list filter whose predicate may raise (evaluating `int(...)` on each
candidate); `none` propagates the exception. -/
def filterO (p : Int → Option Bool) : List Int → Option (List Int)
  | [] => some []
  | x :: xs =>
    match p x with
    | none => none
    | some b =>
      match filterO p xs with
      | none => none
      | some r => some (if b then x :: r else r)

/-- `collect_ancestors` from the source, with fuel for the Python call stack:
walk the HEAD chain upward, stopping at the root or at an already collected
ancestor (the cycle escape), appending each parent id. -/
def collect_ancestors_fuel : Nat → Int → PyTree → List Int → Option (List Int)
  | 0, _, _, _ => none
  | fuel + 1, node_id, tree, ancestors =>
    match headAt tree node_id with
    | none => none
    | some pid =>
      if pid = 0 then some (ancestors ++ [0])
      else if pid ∈ ancestors then some ancestors
      else collect_ancestors_fuel fuel pid tree (ancestors ++ [pid])

/-- `get_caused_nonprojectivities` from the source: the sorted list of nodes
to either side of `iid` (not beyond its parent, ancestors excluded) whose
head lies on the other side of `iid` (and beyond the parent). -/
def get_caused_nonprojectivities (fuel : Nat) (iid : Int) (tree : PyTree) :
    Option (List Int) :=
  (collect_ancestors_fuel fuel iid tree []).bind (fun ancestors =>
  (headAt tree iid).bind (fun pid =>
  (filterO (fun x => (headAt tree x).map (fun h => iid < h))
      ((if pid < iid then pyRangeInt (pid + 1) iid else pyRangeInt 1 iid).filter
        (fun x => x ∉ ancestors))).bind (fun leftcross =>
  (filterO (fun x => (headAt tree x).map (fun h => h < iid))
      ((if pid < iid then pyRangeInt (iid + 1) ((tree.nodes.length : Int) - 1 + 1)
        else pyRangeInt (iid + 1) pid).filter
        (fun x => x ∉ ancestors))).bind (fun rightcross =>
  (if pid < iid then
      filterO (fun x => (headAt tree x).map (fun h => pid < h)) rightcross
    else some rightcross).bind (fun rightcross2 =>
  (if pid < iid then some leftcross
    else filterO (fun x => (headAt tree x).map (fun h => h < pid)) leftcross).bind
      (fun leftcross2 =>
  some (List.insertionSort (fun a b : Int => a ≤ b) (leftcross2 ++ rightcross2))))))))

/-- `get_gap` from the source: the indices of `range(min+1, max-1)` (one
short of the strictly-between range) outside the parent projection; the
projection is not even computed when that range is empty. -/
def get_gap (fuel : Nat) (iid : Int) (tree : PyTree) : Option (Finset Int) :=
  (headAt tree iid).bind (fun pid =>
    let rangebetween :=
      if iid < pid then pyRangeInt (iid + 1) (pid - 1) else pyRangeInt (pid + 1) (iid - 1)
    if rangebetween = [] then some ∅
    else
      (get_projection_fuel fuel tree pid).bind (fun projection =>
        some (rangebetween.toFinset \ projection)))

/-- The `punct-causes-nonproj` diagnostic. -/
def punct_causes_nonproj_diag (nonprojnodes : List Int) (nodeid : Int)
    (nodelineno : Nat) : Diag :=
  { msg := "Punctuation must not cause non-projectivity of nodes " ++ toString nonprojnodes,
    testclass := "Syntax", testlevel := 3, testid := "punct-causes-nonproj",
    nodeid := nodeid, nodelineno := nodelineno }

/-- The `punct-is-nonproj` diagnostic. -/
def punct_is_nonproj_diag (gapL : List Int) (nodeid : Int) (nodelineno : Nat) : Diag :=
  { msg := "Punctuation must not be attached non-projectively over nodes " ++
      toString gapL,
    testclass := "Syntax", testlevel := 3, testid := "punct-is-nonproj",
    nodeid := nodeid, nodelineno := nodelineno }

/-- `validate_projective_punctuation` from the source: on a `punct` relation,
report the nodes whose nonprojectivity the node causes, then the gap the node
is itself attached across, if any. -/
def validate_projective_punctuation (fuel : Nat) (i : Int) (tree : PyTree) :
    Option (List Diag) :=
  match pyListGet tree.nodes i with
  | none => none
  | some row =>
    match pyListGet row ((DEPREL : Nat) : Int) with
    | none => none
    | some dr =>
      if lspec2ud dr = "punct" then
        match get_caused_nonprojectivities fuel i tree with
        | none => none
        | some nonprojnodes =>
          match
            (if nonprojnodes ≠ [] then
              (pyListGet tree.linenos i).map
                (fun ln => [punct_causes_nonproj_diag nonprojnodes i ln])
            else some []) with
          | none => none
          | some d1 =>
            match get_gap fuel i tree with
            | none => none
            | some gap =>
              match
                (if gap ≠ ∅ then
                  (pyListGet tree.linenos i).map
                    (fun ln => [punct_is_nonproj_diag (finsetSortL gap) i ln])
                else some []) with
              | none => none
              | some d2 => some (d1 ++ d2)
      else some []

/-- A four-word sentence whose first word is a `punct` attached to word 3
across word 2, which hangs from word 4: the attachment is nonprojective with
gap {2}. -/
def cexRows4 : List UDLine :=
  [["1", ".", ".", "PUNCT", "_", "_", "3", "punct", "_", "_"],
   ["2", "b", "b", "N", "_", "_", "4", "dep", "_", "_"],
   ["3", "c", "c", "N", "_", "_", "4", "dep", "_", "_"],
   ["4", "d", "d", "V", "_", "_", "0", "root", "_", "_"]]

/-- The tree `build_tree` constructs from `cexRows4`. -/
def cexTree4 : PyTree :=
  ⟨[["0", "_", "_", "_", "_", "_", "_", "_", "_", "_"],
    ["1", ".", ".", "PUNCT", "_", "_", "3", "punct", "_", "_"],
    ["2", "b", "b", "N", "_", "_", "4", "dep", "_", "_"],
    ["3", "c", "c", "N", "_", "_", "4", "dep", "_", "_"],
    ["4", "d", "d", "V", "_", "_", "0", "root", "_", "_"]],
   [[4], [], [], [1], [2, 3]], [1, 1, 2, 3, 4]⟩

/-- Counterexample to C4 as stated: on the valid tree built from `cexRows4`,
word 2 lies strictly between the `punct` word 1 and its head 3 and is outside
the head projection {1, 3} that the code itself computes, i.e. the gap's only
member is the index immediately adjacent (below) to the head; yet
`validate_projective_punctuation` emits no diagnostic at all, because
`get_gap` scans `range(iid+1, pid-1)`, which stops one short of the head. -/
theorem claim_C4_counterexample :
    build_tree cexRows4 true 1 = BTOut.built cexTree4 ∧
    lspec2ud (colAt (["1", ".", ".", "PUNCT", "_", "_", "3", "punct", "_", "_"] :
      List String) DEPREL) = "punct" ∧
    headAt cexTree4 1 = some 3 ∧
    (get_projection_fuel 6 cexTree4 3).isSome = true ∧
    (3 : Int) ∈ (get_projection_fuel 6 cexTree4 3).getD ∅ ∧
    (1 : Int) ∈ (get_projection_fuel 6 cexTree4 3).getD ∅ ∧
    (1 : Int) < 2 ∧ (2 : Int) < 3 ∧
    (2 : Int) ∉ (get_projection_fuel 6 cexTree4 3).getD ∅ ∧
    validate_projective_punctuation 6 1 cexTree4 = some [] := by decide

/-- Membership in the consecutive-integer list. -/
theorem mem_intRangeGo (j : Int) : ∀ (n : Nat) (a : Int),
    j ∈ intRangeGo a n ↔ a ≤ j ∧ j < a + n := by
  intro n
  induction n with
  | zero =>
    intro a
    simp only [intRangeGo, List.not_mem_nil, false_iff]
    omega
  | succ n ih =>
    intro a
    simp only [intRangeGo, List.mem_cons, ih (a + 1)]
    omega

/-- Membership in the integer range list. -/
theorem mem_pyRangeInt (a b j : Int) : j ∈ pyRangeInt a b ↔ a ≤ j ∧ j < b := by
  rw [pyRangeInt, mem_intRangeGo]
  omega

/-- A fallible filter succeeds when the predicate succeeds on every element. -/
theorem filterO_ok (p : Int → Option Bool) (l : List Int)
    (h : ∀ x ∈ l, ∃ b, p x = some b) : ∃ r, filterO p l = some r := by
  induction l with
  | nil => exact ⟨[], rfl⟩
  | cons x xs ih =>
    obtain ⟨b, hb⟩ := h x (List.mem_cons_self x xs)
    obtain ⟨r, hr⟩ := ih (fun y hy => h y (List.mem_cons_of_mem x hy))
    exact ⟨if b then x :: r else r, by simp only [filterO, hb, hr]⟩

/-- On a tree whose heads all parse, stay in range and let every word reach
the root, `collect_ancestors` terminates within the length of the head
chain. -/
theorem collect_ancestors_ok (N : Nat) (hd : Int → Int) (t : PyTree)
    (Hhead : ∀ j : Int, 1 ≤ j → j ≤ N → headAt t j = some (hd j))
    (Hrange : ∀ j : Int, 0 ≤ hd j ∧ hd j ≤ N) :
    ∀ (fuel : Nat) (n : Int) (m : Nat) (anc : List Int), 1 ≤ n → n ≤ N →
      hd^[m] n = 0 → m ≤ fuel →
      ∃ r, collect_ancestors_fuel fuel n t anc = some r := by
  intro fuel
  induction fuel with
  | zero =>
    intro n m anc h1 hN hm hf
    exfalso
    have hm0 : m = 0 := by omega
    subst hm0
    simp only [Function.iterate_zero_apply] at hm
    omega
  | succ fuel ih =>
    intro n m anc h1 hN hm hf
    have hstep : collect_ancestors_fuel (fuel + 1) n t anc =
        (if hd n = 0 then some (anc ++ [0]) else if hd n ∈ anc then some anc
         else collect_ancestors_fuel fuel (hd n) t (anc ++ [hd n])) := by
      simp only [collect_ancestors_fuel, Hhead n (by omega) hN]
    rw [hstep]
    by_cases hp0 : hd n = 0
    · exact ⟨anc ++ [0], by rw [if_pos hp0]⟩
    · rw [if_neg hp0]
      by_cases hpa : hd n ∈ anc
      · exact ⟨anc, if_pos hpa⟩
      · rw [if_neg hpa]
        have hm1 : m ≠ 0 := by
          rintro rfl
          simp only [Function.iterate_zero_apply] at hm
          omega
        obtain ⟨k, rfl⟩ : ∃ k, m = k + 1 := ⟨m - 1, by omega⟩
        have hchain : hd^[k] (hd n) = 0 := by
          rw [← Function.iterate_succ_apply]
          exact hm
        exact ih (hd n) k (anc ++ [hd n]) (by have := (Hrange n).1; omega)
          (Hrange n).2 hchain (by omega)

/-- On in-range inputs the head-testing filter succeeds, with output drawn
from the input. -/
theorem filterO_headAt_ok (N : Nat) (hd : Int → Int) (t : PyTree)
    (Hhead : ∀ j : Int, 1 ≤ j → j ≤ N → headAt t j = some (hd j))
    (f : Int → Bool) (l : List Int) (hl : ∀ x ∈ l, 1 ≤ x ∧ x ≤ (N : Int)) :
    ∃ r, filterO (fun x => (headAt t x).map f) l = some r ∧ ∀ y ∈ r, y ∈ l := by
  induction l with
  | nil => exact ⟨[], rfl, by simp⟩
  | cons x xs ih =>
    obtain ⟨h1, h2⟩ := hl x (List.mem_cons_self x xs)
    obtain ⟨r, hr, hmem⟩ := ih (fun y hy => hl y (List.mem_cons_of_mem x hy))
    refine ⟨if f (hd x) then x :: r else r, ?_, ?_⟩
    · simp only [filterO, Hhead x (by omega) h2, hr]
      rfl
    · intro y hy
      by_cases hb : f (hd x) = true
      · rw [if_pos hb] at hy
        rcases List.mem_cons.mp hy with h | h
        · exact h ▸ List.mem_cons_self x xs
        · exact List.mem_cons_of_mem x (hmem y h)
      · rw [if_neg hb] at hy
        exact List.mem_cons_of_mem x (hmem y hy)

/-- Bind succeeds when the scrutinee is known and the continuation succeeds
on its value. -/
theorem obind_some2 {α β : Type} (x : Option α) (f : α → Option β) (v : α)
    (hx : x = some v) (hf : ∃ r, f v = some r) : ∃ r, x.bind f = some r := by
  rw [hx]
  exact hf

/-- Bind through a head-testing filter: the filter succeeds on in-range
inputs and the continuation succeeds on any sublist of the input. -/
theorem obind_fo (N : Nat) (hd : Int → Int) (t : PyTree) {β : Type}
    (Hhead : ∀ j : Int, 1 ≤ j → j ≤ N → headAt t j = some (hd j))
    (f : Int → Bool) (l : List Int) (g : List Int → Option β)
    (hl : ∀ x ∈ l, 1 ≤ x ∧ x ≤ (N : Int))
    (hg : ∀ r, (∀ y ∈ r, y ∈ l) → ∃ s, g r = some s) :
    ∃ s, (filterO (fun x => (headAt t x).map f) l).bind g = some s := by
  obtain ⟨r, hr, hmem⟩ := filterO_headAt_ok N hd t Hhead f l hl
  rw [hr]
  exact hg r hmem

/-- On a tree with parseable in-range heads whose words all reach the root,
`get_caused_nonprojectivities` raises nothing. -/
theorem gcn_ok (N : Nat) (hd : Int → Int) (t : PyTree)
    (Hhead : ∀ j : Int, 1 ≤ j → j ≤ N → headAt t j = some (hd j))
    (Hrange : ∀ j : Int, 0 ≤ hd j ∧ hd j ≤ N)
    (HN1 : t.nodes.length = N + 1)
    (fuel : Nat) (i : Int) (hi1 : 1 ≤ i) (hiN : i ≤ N)
    (anc : List Int) (hanc : collect_ancestors_fuel fuel i t [] = some anc) :
    ∃ r, get_caused_nonprojectivities fuel i t = some r := by
  unfold get_caused_nonprojectivities
  refine obind_some2 _ _ anc hanc ?_
  refine obind_some2 _ _ (hd i) (Hhead i (by omega) hiN) ?_
  refine obind_fo N hd t Hhead _ _ _ ?_ ?_
  · intro x hx
    rcases List.mem_filter.mp hx with ⟨hx1, _⟩
    by_cases hpi : hd i < i
    · rw [if_pos hpi, mem_pyRangeInt] at hx1
      have := (Hrange i).1
      omega
    · rw [if_neg hpi, mem_pyRangeInt] at hx1
      omega
  · intro leftcross hlmem
    refine obind_fo N hd t Hhead _ _ _ ?_ ?_
    · intro x hx
      rcases List.mem_filter.mp hx with ⟨hx1, _⟩
      by_cases hpi : hd i < i
      · rw [if_pos hpi, mem_pyRangeInt] at hx1
        omega
      · rw [if_neg hpi, mem_pyRangeInt] at hx1
        have := (Hrange i).2
        omega
    · intro rightcross hrmem
      have hlb : ∀ y ∈ leftcross, 1 ≤ y ∧ y ≤ (N : Int) := by
        intro y hy
        rcases List.mem_filter.mp (hlmem y hy) with ⟨hy1, _⟩
        by_cases hpi : hd i < i
        · rw [if_pos hpi, mem_pyRangeInt] at hy1
          have := (Hrange i).1
          omega
        · rw [if_neg hpi, mem_pyRangeInt] at hy1
          omega
      have hrb : ∀ y ∈ rightcross, 1 ≤ y ∧ y ≤ (N : Int) := by
        intro y hy
        rcases List.mem_filter.mp (hrmem y hy) with ⟨hy1, _⟩
        by_cases hpi : hd i < i
        · rw [if_pos hpi, mem_pyRangeInt] at hy1
          omega
        · rw [if_neg hpi, mem_pyRangeInt] at hy1
          have := (Hrange i).2
          omega
      by_cases hpi : hd i < i
      · rw [if_pos hpi, if_pos hpi]
        refine obind_fo N hd t Hhead _ _ _ (fun y hy => hrb y hy) ?_
        intro rightcross2 _
        exact obind_some2 _ _ leftcross rfl ⟨_, rfl⟩
      · rw [if_neg hpi, if_neg hpi]
        refine obind_some2 _ _ rightcross rfl ?_
        refine obind_fo N hd t Hhead _ _ _ (fun y hy => hlb y hy) ?_
        intro leftcross2 _
        exact ⟨_, rfl⟩

/-- The gap computation of `get_gap`, for either orientation of the edge: the
result is defined and nonempty exactly when some index strictly between the
node and its head, other than the one just below the larger end, fails to
reach the head. -/
theorem gap_if_spec (N : Nat) (hd : Int → Int)
    (Hrange : ∀ j : Int, 0 ≤ hd j ∧ hd j ≤ N)
    (Hneq : ∀ j : Int, 1 ≤ j → j ≤ N → hd j ≠ j)
    (Hzero : hd 0 = 0) (t : PyTree)
    (Hlen : (N : Int) < (t.children.length : Int))
    (Hchar : ∀ k : Int, 0 ≤ k → k ≤ N → ∀ j : Int,
      (j ∈ (pyListGet t.children k).getD []) ↔ (1 ≤ j ∧ j ≤ (N : Int) ∧ hd j = k))
    (Hnd : ∀ k : Int, 0 ≤ k → k ≤ N → ((pyListGet t.children k).getD []).Nodup)
    (Hreach : ∀ j : Int, 1 ≤ j → j ≤ N → ∃ m : Nat, hd^[m] j = 0)
    (fuel : Nat) (Hfuel : N + 2 ≤ fuel)
    (i : Int) (hi1 : 1 ≤ i) (hiN : i ≤ N)
    (a b : Int) (ha : a = min i (hd i)) (hb : b = max i (hd i)) :
    ∃ gap, (if pyRangeInt (a + 1) (b - 1) = [] then some (∅ : Finset Int)
      else (get_projection_fuel fuel t (hd i)).bind (fun projection =>
        some ((pyRangeInt (a + 1) (b - 1)).toFinset \ projection))) = some gap ∧
      (gap.Nonempty ↔ ∃ j : Int, min i (hd i) < j ∧ j < max i (hd i) ∧
        j ≠ max i (hd i) - 1 ∧ ¬ ∃ k : Nat, hd^[k] j = hd i) := by
  have hp0 := (Hrange i).1
  have hpN := (Hrange i).2
  by_cases hre : pyRangeInt (a + 1) (b - 1) = []
  · refine ⟨∅, by rw [if_pos hre], ?_⟩
    constructor
    · rintro ⟨x, hx⟩
      exact absurd hx (Finset.not_mem_empty x)
    · rintro ⟨j, hj1, hj2, hj3, _⟩
      exfalso
      have hjmem : j ∈ pyRangeInt (a + 1) (b - 1) := by
        rw [mem_pyRangeInt]
        omega
      rw [hre] at hjmem
      exact List.not_mem_nil j hjmem
  · rw [if_neg hre]
    have hex : ∃ m : Nat, hd^[m] (hd i) = 0 := by
      by_cases h0 : hd i = 0
      · exact ⟨0, by simp only [Function.iterate_zero_apply]; exact h0⟩
      · exact Hreach (hd i) (by omega) hpN
    obtain ⟨S, hS, hSmem⟩ := get_projection_adequate N hd Hrange Hneq Hzero t Hlen
      Hchar Hnd fuel (hd i) (Nat.find hex) hp0 hpN (Nat.find_spec hex)
      (fun k hk => Nat.find_min hex hk) (by omega)
    rw [hS]
    refine ⟨_, rfl, ?_⟩
    constructor
    · rintro ⟨x, hx⟩
      rw [Finset.mem_sdiff, List.mem_toFinset, mem_pyRangeInt] at hx
      obtain ⟨⟨hx1, hx2⟩, hxS⟩ := hx
      refine ⟨x, by omega, by omega, by omega, ?_⟩
      rintro ⟨k, hk⟩
      exact hxS ((hSmem x).mpr ⟨by omega, by omega, ⟨k, hk⟩⟩)
    · rintro ⟨j, hj1, hj2, hj3, hj4⟩
      refine ⟨j, ?_⟩
      rw [Finset.mem_sdiff, List.mem_toFinset, mem_pyRangeInt]
      refine ⟨⟨by omega, by omega⟩, ?_⟩
      intro hjS
      exact hj4 ((hSmem j).mp hjS).2.2

/-- `get_gap` on a valid tree: defined, and nonempty exactly on the truncated
strictly-between range. -/
theorem get_gap_spec (N : Nat) (hd : Int → Int)
    (Hrange : ∀ j : Int, 0 ≤ hd j ∧ hd j ≤ N)
    (Hneq : ∀ j : Int, 1 ≤ j → j ≤ N → hd j ≠ j)
    (Hzero : hd 0 = 0) (t : PyTree)
    (Hlen : (N : Int) < (t.children.length : Int))
    (Hchar : ∀ k : Int, 0 ≤ k → k ≤ N → ∀ j : Int,
      (j ∈ (pyListGet t.children k).getD []) ↔ (1 ≤ j ∧ j ≤ (N : Int) ∧ hd j = k))
    (Hnd : ∀ k : Int, 0 ≤ k → k ≤ N → ((pyListGet t.children k).getD []).Nodup)
    (Hhead : ∀ j : Int, 1 ≤ j → j ≤ N → headAt t j = some (hd j))
    (Hreach : ∀ j : Int, 1 ≤ j → j ≤ N → ∃ m : Nat, hd^[m] j = 0)
    (fuel : Nat) (Hfuel : N + 2 ≤ fuel)
    (i : Int) (hi1 : 1 ≤ i) (hiN : i ≤ N) :
    ∃ gap, get_gap fuel i t = some gap ∧
      (gap.Nonempty ↔ ∃ j : Int, min i (hd i) < j ∧ j < max i (hd i) ∧
        j ≠ max i (hd i) - 1 ∧ ¬ ∃ k : Nat, hd^[k] j = hd i) := by
  have hne : hd i ≠ i := Hneq i hi1 hiN
  unfold get_gap
  rw [Hhead i (by omega) hiN]
  simp only [Option.some_bind]
  by_cases hpi : i < hd i
  · rw [if_pos hpi]
    have hca : (i : Int) + 1 = min i (hd i) + 1 := by omega
    have hcb : hd i - 1 = max i (hd i) - 1 := by omega
    rw [hca, hcb]
    exact gap_if_spec N hd Hrange Hneq Hzero t Hlen Hchar Hnd Hreach fuel Hfuel
      i hi1 hiN (min i (hd i)) (max i (hd i)) rfl rfl
  · rw [if_neg hpi]
    have hca : hd i + 1 = min i (hd i) + 1 := by omega
    have hcb : (i : Int) - 1 = max i (hd i) - 1 := by omega
    rw [hca, hcb]
    exact gap_if_spec N hd Hrange Hneq Hzero t Hlen Hchar Hnd Hreach fuel Hfuel
      i hi1 hiN (min i (hd i)) (max i (hd i)) rfl rfl

/-- C4 (amended): on a valid tree - word ids `1..N`, parseable heads in
`0..N`, no self-loop, every word reaching the root, `children` matching the
head assignment - and a node `i` whose universal relation is `punct`,
`validate_projective_punctuation` emits `punct-is-nonproj` if and only if
some index strictly between `i` and its head, OTHER than the one directly
below the larger of the two (which `range(iid+1, pid-1)` misses), is outside
the head projection, i.e. does not reach the head by iterating the head
assignment.  The spec claim, which demands the diagnostic for every
nonempty gap including one whose only member is adjacent to the head or to
the node, overstates the code. -/
theorem claim_C4_punct_nonproj_amended
    (N : Nat) (hd : Int → Int) (t : PyTree) (fuel : Nat) (i : Int)
    (rowi : UDLine) (dr : String)
    (Hrange : ∀ j : Int, 0 ≤ hd j ∧ hd j ≤ N)
    (Hneq : ∀ j : Int, 1 ≤ j → j ≤ N → hd j ≠ j)
    (Hzero : hd 0 = 0)
    (HN1 : t.nodes.length = N + 1)
    (HL : t.linenos.length = N + 1)
    (Hlen : (N : Int) < (t.children.length : Int))
    (Hchar : ∀ k : Int, 0 ≤ k → k ≤ N → ∀ j : Int,
      (j ∈ (pyListGet t.children k).getD []) ↔ (1 ≤ j ∧ j ≤ (N : Int) ∧ hd j = k))
    (Hnd : ∀ k : Int, 0 ≤ k → k ≤ N → ((pyListGet t.children k).getD []).Nodup)
    (Hhead : ∀ j : Int, 1 ≤ j → j ≤ N → headAt t j = some (hd j))
    (Hreach : ∀ j : Int, 1 ≤ j → j ≤ N → ∃ m : Nat, hd^[m] j = 0)
    (Hfuel : N + 2 ≤ fuel)
    (hi1 : 1 ≤ i) (hiN : i ≤ N)
    (Hrow : pyListGet t.nodes i = some rowi)
    (Hdr : pyListGet rowi ((DEPREL : Nat) : Int) = some dr)
    (Hpunct : lspec2ud dr = "punct") :
    ∃ ds, validate_projective_punctuation fuel i t = some ds ∧
      ((∃ d ∈ ds, d.testid = "punct-is-nonproj") ↔
        ∃ j : Int, min i (hd i) < j ∧ j < max i (hd i) ∧ j ≠ max i (hd i) - 1 ∧
          ¬ ∃ k : Nat, hd^[k] j = hd i) := by
  have hexi : ∃ m : Nat, hd^[m] i = 0 := Hreach i hi1 hiN
  have hminle : Nat.find hexi ≤ N := chain_min_le N hd Hrange i (by omega) hiN
    (Nat.find hexi) (Nat.find_spec hexi) (fun k hk => Nat.find_min hexi hk)
  obtain ⟨anc, hanc⟩ := collect_ancestors_ok N hd t Hhead Hrange fuel i
    (Nat.find hexi) [] hi1 hiN (Nat.find_spec hexi) (by omega)
  obtain ⟨np, hnp⟩ := gcn_ok N hd t Hhead Hrange HN1 fuel i hi1 hiN anc hanc
  have hlin : pyListGet t.linenos i = some (t.linenos.getD i.toNat 0) :=
    pyListGet_in_range t.linenos i (by omega) (by rw [HL]; omega) 0
  obtain ⟨gap, hgap, hiff⟩ := get_gap_spec N hd Hrange Hneq Hzero t Hlen Hchar Hnd
    Hhead Hreach fuel Hfuel i hi1 hiN
  have hd1 : ∃ d1, (if np ≠ [] then
      (pyListGet t.linenos i).map (fun ln => [punct_causes_nonproj_diag np i ln])
      else some []) = some d1 ∧ ∀ d ∈ d1, d.testid = "punct-causes-nonproj" := by
    by_cases hnp0 : np = []
    · refine ⟨[], by simp [hnp0], by simp⟩
    · refine ⟨[punct_causes_nonproj_diag np i (t.linenos.getD i.toNat 0)], ?_, ?_⟩
      · rw [if_pos hnp0, hlin]
        rfl
      · intro d hdm
        rw [List.mem_singleton] at hdm
        subst hdm
        rfl
  obtain ⟨d1, hd1eq, hd1t⟩ := hd1
  have hd2 : ∃ d2, (if gap ≠ ∅ then
      (pyListGet t.linenos i).map (fun ln => [punct_is_nonproj_diag (finsetSortL gap) i ln])
      else some []) = some d2 ∧
      ((∃ d ∈ d2, d.testid = "punct-is-nonproj") ↔ gap ≠ ∅) := by
    by_cases hg0 : gap = ∅
    · refine ⟨[], by simp [hg0], ?_⟩
      simp [hg0]
    · refine ⟨[punct_is_nonproj_diag (finsetSortL gap) i (t.linenos.getD i.toNat 0)],
        ?_, ?_⟩
      · rw [if_pos hg0, hlin]
        rfl
      · exact iff_of_true ⟨_, List.mem_singleton_self _, rfl⟩ hg0
  obtain ⟨d2, hd2eq, hd2t⟩ := hd2
  have hds : validate_projective_punctuation fuel i t = some (d1 ++ d2) := by
    simp only [validate_projective_punctuation, Hrow, Hdr, Hpunct, if_true, hnp,
      hd1eq, hgap, hd2eq]
  refine ⟨d1 ++ d2, hds, ?_⟩
  have hsplit : (∃ d ∈ d1 ++ d2, d.testid = "punct-is-nonproj") ↔
      (∃ d ∈ d2, d.testid = "punct-is-nonproj") := by
    constructor
    · rintro ⟨d, hdm, hdt⟩
      rcases List.mem_append.mp hdm with h | h
      · rw [hd1t d h] at hdt
        exact absurd hdt (by decide)
      · exact ⟨d, h, hdt⟩
    · rintro ⟨d, hdm, hdt⟩
      exact ⟨d, List.mem_append_right d1 hdm, hdt⟩
  rw [hsplit, hd2t, ← Finset.nonempty_iff_ne_empty]
  exact hiff

/-- Head assignment for the C4 witness tree: `punct` word 1 hangs from word
4, words 2-4 from word 5, word 5 from the root. -/
def wtHead5 : Int → Int :=
  fun j => if j = 1 then 4 else if j = 2 ∨ j = 3 ∨ j = 4 then 5 else 0

/-- The C4 witness tree: five words with the heads of `wtHead5`. -/
def wtTree5 : PyTree :=
  ⟨[["0", "_", "_", "_", "_", "_", "_", "_", "_", "_"],
    ["1", ".", ".", "PUNCT", "_", "_", "4", "punct", "_", "_"],
    ["2", "b", "b", "N", "_", "_", "5", "dep", "_", "_"],
    ["3", "c", "c", "N", "_", "_", "5", "dep", "_", "_"],
    ["4", "d", "d", "N", "_", "_", "5", "dep", "_", "_"],
    ["5", "e", "e", "V", "_", "_", "0", "root", "_", "_"]],
   [[5], [], [], [], [1], [2, 3, 4]], [1, 1, 2, 3, 4, 5]⟩

/-- Witness for C4 (amended): the five-word tree satisfies every hypothesis;
word 2 lies strictly between the `punct` word 1 and its head 4, differs from
3, and does not reach 4, so the biconditional instantiates truthfully. -/
theorem claim_C4_punct_nonproj_amended_witness :
    ∃ ds, validate_projective_punctuation 7 1 wtTree5 = some ds ∧
      ((∃ d ∈ ds, d.testid = "punct-is-nonproj") ↔
        ∃ j : Int, min 1 (wtHead5 1) < j ∧ j < max 1 (wtHead5 1) ∧
          j ≠ max 1 (wtHead5 1) - 1 ∧ ¬ ∃ k : Nat, wtHead5^[k] j = wtHead5 1) := by
  exact claim_C4_punct_nonproj_amended 5 wtHead5 wtTree5 7 1
    (["1", ".", ".", "PUNCT", "_", "_", "4", "punct", "_", "_"]) "punct"
    (by intro j; unfold wtHead5; split <;> (try split) <;> omega)
    (by intro j h1 h2; unfold wtHead5; split <;> (try split) <;> omega)
    (by decide) (by decide) (by decide) (by decide)
    (by
      intro k hk0 hkN j
      interval_cases k
      · show j ∈ ([5] : List Int) ↔ _
        simp only [List.mem_singleton]
        unfold wtHead5
        split <;> (try split) <;> omega
      · show j ∈ ([] : List Int) ↔ _
        simp only [List.not_mem_nil, false_iff]
        unfold wtHead5
        split <;> (try split) <;> omega
      · show j ∈ ([] : List Int) ↔ _
        simp only [List.not_mem_nil, false_iff]
        unfold wtHead5
        split <;> (try split) <;> omega
      · show j ∈ ([] : List Int) ↔ _
        simp only [List.not_mem_nil, false_iff]
        unfold wtHead5
        split <;> (try split) <;> omega
      · show j ∈ ([1] : List Int) ↔ _
        simp only [List.mem_singleton]
        unfold wtHead5
        split <;> (try split) <;> omega
      · show j ∈ ([2, 3, 4] : List Int) ↔ _
        simp only [List.mem_cons, List.not_mem_nil, or_false]
        unfold wtHead5
        split <;> (try split) <;> omega)
    (by
      intro k hk0 hkN
      interval_cases k <;> decide)
    (by
      intro j h1 h5
      interval_cases j <;> decide)
    (by
      intro j h1 h5
      interval_cases j
      · exact ⟨3, by decide⟩
      · exact ⟨2, by decide⟩
      · exact ⟨2, by decide⟩
      · exact ⟨2, by decide⟩
      · exact ⟨1, by decide⟩)
    (by omega) (by omega) (by omega)
    (by decide) (by decide) (by decide)
